import Mathlib

/-!
Shallow embedding of the passive-scanner core pipeline
(fingerprint model, evaluator, planner, evidence) in Lean 4,
with theorems checking the natural-language specification.

Each definition is translated from the corresponding Python source file:
  * fingerprint/model.py  : Probe, Fingerprint
  * engine/evaluator.py   : Evaluator.evaluate_probe, Evaluator.evaluate_fingerprint
  * engine/planner.py     : ScanPlan, Planner.create_scan_plan,
                            select_provider_for_probe, optimize_plan, execute_plan
  * engine/evidence.py    : Evidence, raw_data_hash, summary, to_dict

Python dictionaries are modelled as insertion-ordered association lists,
optional dictionary keys as Option, provider exceptions as Except, and the
SHA-256 function from hashlib as an arbitrary function parameter
(its internals are outside the program under study).
-/

/-- Mirrors fingerprint/model.py, class Probe: a single check against a target. -/
structure Probe where
  name : String
  protocol : String
  field : String
  match_type : String
  value : String
deriving DecidableEq, Repr

/-- Mirrors fingerprint/model.py, class Fingerprint: a complete fingerprint
specification with ordered probes and a match-logic tag. -/
structure Fingerprint where
  fingerprint_id : String
  name : String
  version : String
  probes : List Probe
  match_logic : String
deriving DecidableEq, Repr

/-- JSON-like values, the payloads that providers return and that Evidence
stores in raw_data.  Objects are insertion-ordered key/value lists, as
Python dicts are. -/
inductive Json where
  | str (s : String)
  | num (n : Int)
  | jbool (b : Bool)
  | null
  | arr (elems : List Json)
  | obj (entries : List (String × Json))
deriving Repr

/-- A JSON object body: the model of a Python dict with JSON values. -/
abbrev JDict := List (String × Json)

/-- Python d.get(k): first binding of the key in an insertion-ordered dict,
none when the key is absent. -/
def dget (d : JDict) (k : String) : Option Json :=
  (d.find? (fun kv => kv.1 == k)).map (fun kv => kv.2)

/-- Python d.get(k, default) restricted to dict-valued entries: returns the
entries of the value when it is an object.  A non-dict value at an
intermediate step of the chained lookups in evaluate_probe would raise
AttributeError in Python; such payloads violate the provider contract of
spec section 4.1 and are not modelled. -/
def dgetObj (d : JDict) (k : String) : JDict :=
  match dget d k with
  | some (Json.obj entries) => entries
  | _ => []

/-- The dict a provider query returns, per providers/base.py: keys
success, data, error.  success defaults to False and data to the empty
dict when absent (the .get defaults used throughout engine code); error
is none when the key is absent. -/
structure ProbeResult where
  success : Bool
  data : JDict
  error : Option String
deriving Repr

namespace Rx

/-- Regular-expression abstract syntax for the subset of Python re syntax
used by fingerprint patterns: literal characters, the escape \d, the
wildcard dot, concatenation, alternation (internal, for derivatives),
and Kleene star (from which + is built). -/
inductive Re where
  | void
  | eps
  | chr (c : Char)
  | digit
  | anyc
  | seq (a b : Re)
  | alt (a b : Re)
  | star (a : Re)
deriving DecidableEq, Repr

/-- Does the expression accept the empty string. -/
def nullable : Re → Bool
  | Re.void => false
  | Re.eps => true
  | Re.chr _ => false
  | Re.digit => false
  | Re.anyc => false
  | Re.seq a b => nullable a && nullable b
  | Re.alt a b => nullable a || nullable b
  | Re.star _ => true

/-- Brzozowski derivative with respect to one character.  The wildcard dot
matches any character except the newline, as in Python re default mode.
The digit class is the ASCII digits; the Python \d additionally matches
the non-ASCII Unicode decimal digits, so theorems about the regex
branch restrict the searched value to ASCII characters, where the two
classes coincide. -/
def derivStep : Re → Char → Re
  | Re.void, _ => Re.void
  | Re.eps, _ => Re.void
  | Re.chr c, x => if x = c then Re.eps else Re.void
  | Re.digit, x => if x.isDigit then Re.eps else Re.void
  | Re.anyc, x => if x = '\n' then Re.void else Re.eps
  | Re.seq a b, x =>
      if nullable a then Re.alt (Re.seq (derivStep a x) b) (derivStep b x)
      else Re.seq (derivStep a x) b
  | Re.alt a b, x => Re.alt (derivStep a x) (derivStep b x)
  | Re.star a, x => Re.seq (derivStep a x) (Re.star a)

/-- Does the expression match some prefix of the character list (possibly
the empty prefix).  This is the truth value of an anchored re.match
attempt at this position. -/
def matchesPref : Re → List Char → Bool
  | r, [] => nullable r
  | r, c :: cs => nullable r || matchesPref (derivStep r c) cs

/-- The suffixes of a list, longest first, ending with the empty list:
the candidate search positions of re.search. -/
def suffixes : List Char → List (List Char)
  | [] => [[]]
  | c :: cs => (c :: cs) :: suffixes cs

/-- Characters that the embedded pattern subset does not support; a pattern
containing one of them fails to parse rather than being misread. -/
def unsupportedMeta (c : Char) : Bool :=
  c = '*' || c = '?' || c = '(' || c = ')' || c = '[' || c = ']' ||
  c = '\x7b' || c = '\x7d' || c = '|' || c = '^' || c = '$'

/-- Parse a pattern string (as a character list) into the subset syntax.
The accumulator holds the atoms read so far, most recent first; the
postfix + wraps the most recent atom.  Returns none on every construct
whose Python semantics the subset does not model faithfully: a trailing
backslash, an escape of an ASCII letter other than d (Python gives
these character-class or anchor semantics, such as \s and \w) or of an
ASCII digit (a backreference or octal escape), a doubled plus (a
possessive quantifier in Python), a leading +, and the unsupported
metacharacters.  An escape of any other character is that literal
character, as in Python. -/
def parseRx : List Char → List Re → Option Re
  | [], acc => some ((acc.reverse).foldl Re.seq Re.eps)
  | '\\' :: [], _ => none
  | '\\' :: c :: rest, acc =>
      if c = 'd' then parseRx rest (Re.digit :: acc)
      else if c.isAlpha || c.isDigit then none
      else parseRx rest (Re.chr c :: acc)
  | '+' :: rest, acc =>
      match acc, rest with
      | [], _ => none
      | _, '+' :: _ => none
      | a :: as, _ => parseRx rest (Re.seq a (Re.star a) :: as)
  | '.' :: rest, acc => parseRx rest (Re.anyc :: acc)
  | c :: rest, acc =>
      if unsupportedMeta c then none else parseRx rest (Re.chr c :: acc)

/-- Truthiness of Python re.search(pattern, s): the parsed pattern matches
a substring starting at some position of s, in other words an anchored
match succeeds at some suffix.  On an unparseable pattern this yields
false while Python either raises re.error (trailing backslash, unknown
letter escape, doubled repeat) or applies semantics outside the subset
(character classes such as \s, backreferences); the regex theorem is
therefore guarded on a successful parse. -/
def search (pattern s : String) : Bool :=
  match parseRx pattern.toList [] with
  | none => false
  | some r => (suffixes s.toList).any (fun t => matchesPref r t)

end Rx

/-- Substring test on character lists: Python needle in haystack. -/
def isSubstr (needle hay : List Char) : Bool :=
  (Rx.suffixes hay).any (fun t => needle.isPrefixOf t)

/-- Mirrors engine/evaluator.py lines 20 to 31: extract the field value
named by probe.field from the Netlas-shaped response data.  Only the two
fields the source understands are extracted, each from the first element
of the items container; every other shape leaves the value absent. -/
def extract_field_value (probe : Probe) (data : JDict) : Option String :=
  match dget data "items" with
  | some (Json.arr (item :: _)) =>
      match item with
      | Json.obj entries =>
          if probe.field = "headers.server" then
            match dget (dgetObj (dgetObj (dgetObj entries "data") "http") "head") "server" with
            | some (Json.str s) => some s
            | _ => none
          else if probe.field = "certificate.serial" then
            match dget (dgetObj (dgetObj entries "data") "certificate") "serial" with
            | some (Json.str s) => some s
            | _ => none
          else none
      | _ => none
  | _ => none

/-- Mirrors Evaluator.evaluate_probe (engine/evaluator.py lines 9 to 46):
evaluate a single probe result, returning the match flag and the
evidence string. -/
def evaluate_probe (probe_result : ProbeResult) (probe : Probe) : Bool × String :=
  if !probe_result.success then
    (false, "Probe failed: " ++ probe_result.error.getD "Unknown error")
  else
    match extract_field_value probe probe_result.data with
    | none => (false, "Field not found in response")
    | some field_value =>
      if probe.match_type = "exact" then
        (field_value == probe.value, probe.field ++ "=" ++ field_value)
      else if probe.match_type = "contains" then
        (isSubstr probe.value.toList field_value.toList, probe.field ++ "=" ++ field_value)
      else if probe.match_type = "regex" then
        (Rx.search probe.value field_value, probe.field ++ "=" ++ field_value)
      else
        (false, "Unknown match type: " ++ probe.match_type)

/-- One element of the probe_results list that evaluate_fingerprint builds:
the dict with keys probe, match, evidence. -/
structure ProbeRecord where
  probe : String
  is_match : Bool
  evidence : String
deriving DecidableEq, Repr

/-- The dict evaluate_fingerprint returns. -/
structure EvalOutcome where
  fingerprint_id : String
  overall_match : Bool
  probe_results : List ProbeRecord
  evidence : String
  matched_probes : List String
deriving DecidableEq, Repr

/-- Mirrors Evaluator.evaluate_fingerprint (engine/evaluator.py lines 48
to 82): evaluate every pair, then aggregate per match_logic; the custom
branch of the source falls back to the all semantics. -/
def evaluate_fingerprint (probe_results : List (Probe × ProbeResult))
    (fingerprint : Fingerprint) : EvalOutcome :=
  let individual_results := probe_results.map (fun pr =>
    let e := evaluate_probe pr.2 pr.1
    ProbeRecord.mk pr.1.name e.1 e.2)
  let overall_match :=
    if fingerprint.match_logic = "all" then
      individual_results.all (fun r => r.is_match)
    else if fingerprint.match_logic = "any" then
      individual_results.any (fun r => r.is_match)
    else
      individual_results.all (fun r => r.is_match)
  { fingerprint_id := fingerprint.fingerprint_id
    overall_match := overall_match
    probe_results := individual_results
    evidence := String.intercalate "; " (individual_results.map (fun r => r.evidence))
    matched_probes := (individual_results.filter (fun r => r.is_match)).map (fun r => r.probe) }

/-!  engine/evidence.py  -/

/-- Code-point lexicographic order on character lists: the order Python
uses to compare strings, hence the order of sort_keys in json.dumps. -/
def lexLe : List Char → List Char → Bool
  | [], _ => true
  | _ :: _, [] => false
  | a :: as, b :: bs =>
      if a.toNat < b.toNat then true
      else if b.toNat < a.toNat then false
      else lexLe as bs

/-- Key order for json.dumps sort_keys: compare the key strings. -/
def keyLe (a b : String × Json) : Bool :=
  lexLe a.1.toList b.1.toList

/-- Insert one entry into a key-sorted dict, keeping it sorted; equal keys
keep the existing entry first (insertion sort is stable, as Python
sorted is). -/
def insKV (p : String × Json) : JDict → JDict
  | [] => [p]
  | q :: rest => if keyLe p q then p :: q :: rest else q :: insKV p rest

/-- Sort a dict by key, stably: the effect of sort_keys on one object. -/
def sortKVs : JDict → JDict
  | [] => []
  | p :: rest => insKV p (sortKVs rest)

mutual

/-- Recursively sort every object of a JSON value by key: json.dumps with
sort_keys serializes exactly the result of this canonicalization. -/
def sortJson : Json → Json
  | Json.str s => Json.str s
  | Json.num n => Json.num n
  | Json.jbool b => Json.jbool b
  | Json.null => Json.null
  | Json.arr xs => Json.arr (sortJsonList xs)
  | Json.obj entries => Json.obj (sortKVs (sortJsonEntries entries))

/-- Pointwise canonicalization of a JSON array body. -/
def sortJsonList : List Json → List Json
  | [] => []
  | x :: xs => sortJson x :: sortJsonList xs

/-- Canonicalize the values of a dict before its keys are sorted. -/
def sortJsonEntries : JDict → JDict
  | [] => []
  | (k, v) :: rest => (k, sortJson v) :: sortJsonEntries rest

end

mutual

/-- Serialize a JSON value in the notation of json.dumps with its default
separators; escaping of special characters inside strings is not
modelled (no claim depends on it). -/
def jdumpRaw : Json → String
  | Json.str s => "\"" ++ s ++ "\""
  | Json.num n => toString n
  | Json.jbool b => if b then "true" else "false"
  | Json.null => "null"
  | Json.arr xs => "[" ++ String.intercalate ", " (jdumpList xs) ++ "]"
  | Json.obj entries => "\x7b" ++ String.intercalate ", " (jdumpEntries entries) ++ "\x7d"

/-- Serialized elements of an array body. -/
def jdumpList : List Json → List String
  | [] => []
  | x :: xs => jdumpRaw x :: jdumpList xs

/-- Serialized key-value entries of an object body. -/
def jdumpEntries : JDict → List String
  | [] => []
  | (k, v) :: rest => ("\"" ++ k ++ "\": " ++ jdumpRaw v) :: jdumpEntries rest

end

/-- json.dumps(value, sort_keys=True): serialize the key-canonicalized value. -/
def jdumpsSorted (j : Json) : String :=
  jdumpRaw (sortJson j)

/-- Mirrors engine/evidence.py, dataclass Evidence.  The timestamp field
holds the isoformat capture time; the source fills it from the wall
clock at construction, so it is opaque data here.  The source field
named match is called is_match because match is a Lean keyword. -/
structure Evidence where
  probe_name : String
  target : String
  timestamp : String
  success : Bool
  is_match : Bool
  expected_value : String
  actual_value : String
  error_message : String
  raw_data : JDict
deriving Repr

/-- Mirrors Evidence.raw_data_hash (engine/evidence.py lines 40 to 45):
empty string for an empty dict, otherwise the first 16 characters of
the SHA-256 hex digest of the key-sorted serialization.  The SHA-256
function itself is library code outside the program, so it is passed
as a parameter. -/
def Evidence.raw_data_hash (sha256hex : String → String) (e : Evidence) : String :=
  if e.raw_data.isEmpty then ""
  else (sha256hex (jdumpsSorted (Json.obj e.raw_data))).take 16

/-- Mirrors Evidence.summary (engine/evidence.py lines 47 to 57). -/
def Evidence.summary (e : Evidence) : String :=
  if !e.success then "Failed: " ++ e.error_message
  else if e.is_match then
    "Matched \x27" ++ e.expected_value ++ "\x27 found as \x27" ++ e.actual_value ++ "\x27"
  else
    "No match: expected \x27" ++ e.expected_value ++ "\x27, got \x27" ++ e.actual_value ++ "\x27"

/-- Mirrors Evidence.to_dict (engine/evidence.py lines 25 to 38): the
serialized representation, with the two derived fields recomputed. -/
def Evidence.to_dict (sha256hex : String → String) (e : Evidence) : JDict :=
  [("probe_name", Json.str e.probe_name),
   ("target", Json.str e.target),
   ("timestamp", Json.str e.timestamp),
   ("success", Json.jbool e.success),
   ("match", Json.jbool e.is_match),
   ("expected_value", Json.str e.expected_value),
   ("actual_value", Json.str e.actual_value),
   ("error_message", Json.str e.error_message),
   ("raw_data_hash", Json.str (e.raw_data_hash sha256hex)),
   ("summary", Json.str e.summary)]

/-- Mirrors EvidenceCollector.add_probe_result (engine/evidence.py lines 70
to 93): builds the Evidence record that the collector appends.  The
collector itself is a list of Evidence; appends are made explicit in
execute_plan below.  The timestamp is the capture time in the source
and is left empty here. -/
def EvidenceCollector.add_probe_result (probe_name target : String)
    (success is_match : Bool) (expected_value actual_value error_message : String)
    (raw_data : JDict) : Evidence :=
  Evidence.mk probe_name target "" success is_match expected_value actual_value
    error_message raw_data

/-!  engine/planner.py  -/

/-- Mirrors providers/base.py, class BaseProvider: the capability predicate
and the query operation.  A query that raises is modelled by the error
branch of Except, carrying str(e). -/
structure BaseProvider where
  can_handle : Probe → Bool
  query : String → Probe → Except String ProbeResult

/-- Python dict assignment d[k] = v on an insertion-ordered dict: replace
the value in place when the key exists, append a new binding otherwise. -/
def setKey (k : String) (v : List Probe) :
    List (String × List Probe) → List (String × List Probe)
  | [] => [(k, v)]
  | (k2, v2) :: rest =>
      if k2 = k then (k, v) :: rest else (k2, v2) :: setKey k v rest

/-- Mirrors engine/planner.py, class ScanPlan: the mapping from target to
ordered probe list.  The source also initializes fingerprint_providers,
which no method ever reads or writes; it is omitted. -/
structure ScanPlan where
  target_probes : List (String × List Probe)
deriving DecidableEq, Repr

/-- ScanPlan.__init__: the freshly constructed empty plan. -/
def ScanPlan.empty : ScanPlan :=
  ScanPlan.mk []

/-- ScanPlan.add_target: assignment into the target_probes dict. -/
def ScanPlan.add_target (plan : ScanPlan) (target : String) (probes : List Probe) :
    ScanPlan :=
  ScanPlan.mk (setKey target probes plan.target_probes)

/-- ScanPlan.get_targets: the keys, in insertion order. -/
def ScanPlan.get_targets (plan : ScanPlan) : List String :=
  plan.target_probes.map (fun tp => tp.1)

/-- ScanPlan.get_probes_for_target: dict .get with default empty list. -/
def ScanPlan.get_probes_for_target (plan : ScanPlan) (target : String) : List Probe :=
  ((plan.target_probes.find? (fun tp => tp.1 == target)).map (fun tp => tp.2)).getD []

/-- ScanPlan.validate (engine/planner.py lines 35 to 45): true iff the
plan has at least one target entry; the rest of the source method only
logs. -/
def ScanPlan.validate (plan : ScanPlan) : Bool :=
  !plan.target_probes.isEmpty

/-- The body of the target loop of create_scan_plan: collect the probes of
the truncated fingerprint sequence that some provider can handle, and
add the target only when that list is nonempty. -/
def create_plan_step (providers : List BaseProvider) (fingerprint : Fingerprint)
    (max_probes_per_target : Nat) (plan : ScanPlan) (target : String) : ScanPlan :=
  let valid_probes := (fingerprint.probes.take max_probes_per_target).filter
    (fun probe => providers.any (fun p => p.can_handle probe))
  if valid_probes.isEmpty then plan else plan.add_target target valid_probes

/-- Mirrors Planner.create_scan_plan (engine/planner.py lines 60 to 97):
per target, truncate the fingerprint probes to the first
max_probes_per_target, keep those some provider can handle, and add the
target only when the surviving list is nonempty. -/
def create_scan_plan (providers : List BaseProvider) (targets : List String)
    (fingerprint : Fingerprint) (max_probes_per_target : Nat) : ScanPlan :=
  targets.foldl (create_plan_step providers fingerprint max_probes_per_target)
    ScanPlan.empty

/-- Mirrors Planner.select_provider_for_probe (engine/planner.py lines 99
to 113): the first registered provider whose can_handle accepts the
probe. -/
def select_provider_for_probe (providers : List BaseProvider) (probe : Probe) :
    Option BaseProvider :=
  providers.find? (fun p => p.can_handle probe)

/-- The registration index of the provider select_provider_for_probe picks.
Distinct registered providers are distinct Python objects, so grouping
by the selected provider object is grouping by this index. -/
def provider_index (providers : List BaseProvider) (probe : Probe) : Option Nat :=
  providers.findIdx? (fun p => p.can_handle probe)

/-- defaultdict(list) append under a key: extend the bound list in place
when the key exists, append a new group at the end otherwise.  This is
the provider_probes accumulation of optimize_plan. -/
def addGroup (i : Nat) (probe : Probe) :
    List (Nat × List Probe) → List (Nat × List Probe)
  | [] => [(i, [probe])]
  | (j, ps) :: rest =>
      if j = i then (j, ps ++ [probe]) :: rest else (j, ps) :: addGroup i probe rest

/-- One step of the provider_probes accumulation of optimize_plan: a probe
with no provider is skipped, otherwise it joins the group of its
selected provider. -/
def groupStep (providers : List BaseProvider) (acc : List (Nat × List Probe))
    (probe : Probe) : List (Nat × List Probe) :=
  match provider_index providers probe with
  | none => acc
  | some i => addGroup i probe acc

/-- The provider_probes dict of optimize_plan after scanning the probes
left to right: probes with no provider are skipped. -/
def groupByProvider (providers : List BaseProvider) (probes : List Probe) :
    List (Nat × List Probe) :=
  probes.foldl (groupStep providers) []

/-- The body of the target loop of optimize_plan: flatten the grouped
probes of one target in dict insertion order, and keep the target only
when the result is nonempty. -/
def optimize_target_step (providers : List BaseProvider) (acc : ScanPlan)
    (tp : String × List Probe) : ScanPlan :=
  let optimized_probes := ((groupByProvider providers tp.2).map (fun g => g.2)).flatten
  if optimized_probes.isEmpty then acc else acc.add_target tp.1 optimized_probes

/-- Mirrors Planner.optimize_plan (engine/planner.py lines 135 to 171):
per target, group the probes by selected provider, concatenate the
groups in dict insertion order, and keep the target only when the
result is nonempty; the count comparison in the source only logs. -/
def optimize_plan (providers : List BaseProvider) (plan : ScanPlan) : ScanPlan :=
  plan.target_probes.foldl (optimize_target_step providers) ScanPlan.empty

/-- The body of the probe loop of execute_plan: one probe is resolved to a
provider and queried; exactly one Evidence record is appended, and the
raw (probe, result) pair is appended only when the query returned.  A
provider exception surfaces as the error branch of query and is turned
into a failed Evidence record, never propagated. -/
def execute_probe_step (providers : List BaseProvider) (target : String)
    (tacc : List (Probe × ProbeResult) × List Evidence) (probe : Probe) :
    List (Probe × ProbeResult) × List Evidence :=
  match select_provider_for_probe providers probe with
  | none =>
      (tacc.1, tacc.2 ++ [EvidenceCollector.add_probe_result probe.name target
        false false "" "" "No provider available" []])
  | some provider =>
      match provider.query target probe with
      | Except.ok result =>
          (tacc.1 ++ [(probe, result)],
           tacc.2 ++ [EvidenceCollector.add_probe_result probe.name target
             result.success false probe.value "" "" result.data])
      | Except.error e =>
          (tacc.1, tacc.2 ++ [EvidenceCollector.add_probe_result probe.name target
            false false "" "" e []])

/-- The body of the target loop of execute_plan: run the probes of one
target from an empty per-target result list, threading the evidence
list through. -/
def execute_target_step (providers : List BaseProvider) (plan : ScanPlan)
    (acc : List (String × List (Probe × ProbeResult)) × List Evidence)
    (target : String) :
    List (String × List (Probe × ProbeResult)) × List Evidence :=
  let probes := plan.get_probes_for_target target
  let inner := probes.foldl (execute_probe_step providers target)
    (([] : List (Probe × ProbeResult)), acc.2)
  (acc.1 ++ [(target, inner.1)], inner.2)

/-- Mirrors Planner.execute_plan (engine/planner.py lines 173 to 249): an
invalid plan yields the empty mapping and no evidence; otherwise every
target of the plan is processed in order through execute_target_step.
The state of the run is the pair of the results mapping built so far
and the list of Evidence records appended to the collector so far. -/
def execute_plan (providers : List BaseProvider) (plan : ScanPlan) :
    List (String × List (Probe × ProbeResult)) × List Evidence :=
  if !plan.validate then ([], [])
  else
    plan.get_targets.foldl (execute_target_step providers plan)
      (([], []) : List (String × List (Probe × ProbeResult)) × List Evidence)

/-!  Specification-side characterizations, written from the words of the
     spec so that the theorems below can compare the translated code
     against them.  -/

/-- What the spec says one probe contributes to the raw result list of its
target: the pair itself when a provider was found and its query
returned (successfully or not), and nothing when no provider was
available or the query raised. -/
def probe_outcome (providers : List BaseProvider) (target : String) (probe : Probe) :
    Option (Probe × ProbeResult) :=
  match select_provider_for_probe providers probe with
  | none => none
  | some p =>
      match p.query target probe with
      | Except.ok r => some (probe, r)
      | Except.error _ => none

/-- What the spec says one probe contributes to the evidence collector:
exactly one record, a failed one naming the missing provider, a record
mirroring the reported success of the query, or a failed one carrying
the message of the exception. -/
def probe_evidence (providers : List BaseProvider) (target : String) (probe : Probe) :
    Evidence :=
  match select_provider_for_probe providers probe with
  | none => Evidence.mk probe.name target "" false false "" "" "No provider available" []
  | some p =>
      match p.query target probe with
      | Except.ok r => Evidence.mk probe.name target "" r.success false probe.value "" "" r.data
      | Except.error e => Evidence.mk probe.name target "" false false "" "" e []

/-- One step of the first-encounter key order: the provider registration
indices in the order they are first encountered while scanning the
probes of one target left to right, skipping probes with no provider:
the group order of optimize_plan as the spec words it. -/
def encounterStep (providers : List BaseProvider) (ks : List Nat) (probe : Probe) :
    List Nat :=
  match provider_index providers probe with
  | none => ks
  | some i => if ks.contains i then ks else ks ++ [i]

/-- See encounterStep: the accumulated first-encounter key order. -/
def encounterKeys (providers : List BaseProvider) (probes : List Probe) : List Nat :=
  probes.foldl (encounterStep providers) []

/-- The probe order the spec promises for one target after optimization:
the groups in first-encounter order, each group the subsequence of the
original probes selecting that provider. -/
def regrouped (providers : List BaseProvider) (probes : List Probe) : List Probe :=
  ((encounterKeys providers probes).map (fun i =>
    probes.filter (fun probe => provider_index providers probe == some i))).flatten

/-- Declarative semantics of the regular-expression subset: which character
lists a pattern denotes.  Used to state that the regex branch of
evaluate_probe is an unanchored search. -/
inductive Lang : Rx.Re → List Char → Prop where
  | eps : Lang Rx.Re.eps []
  | chr (c : Char) : Lang (Rx.Re.chr c) [c]
  | digit (c : Char) : c.isDigit = true → Lang Rx.Re.digit [c]
  | anyc (c : Char) : c ≠ '\n' → Lang Rx.Re.anyc [c]
  | seq {a b : Rx.Re} {s t : List Char} :
      Lang a s → Lang b t → Lang (Rx.Re.seq a b) (s ++ t)
  | alt_left {a b : Rx.Re} {s : List Char} : Lang a s → Lang (Rx.Re.alt a b) s
  | alt_right {a b : Rx.Re} {s : List Char} : Lang b s → Lang (Rx.Re.alt a b) s
  | star_nil {a : Rx.Re} : Lang (Rx.Re.star a) []
  | star_cons {a : Rx.Re} {s t : List Char} :
      Lang a s → Lang (Rx.Re.star a) t → Lang (Rx.Re.star a) (s ++ t)

/-!  Concrete fixtures used by the witness theorems.  -/

/-- A Netlas-shaped response body whose first item carries the given
http head server value. -/
def serverResponse (server : String) : JDict :=
  [("items", Json.arr [Json.obj [("data", Json.obj
    [("http", Json.obj [("head", Json.obj [("server", Json.str server)])])])]])]

/-- A successful probe result carrying the given server header. -/
def okResult (server : String) : ProbeResult :=
  ProbeResult.mk true (serverResponse server) none

/-- The regex probe of the spec example: an Apache version pattern. -/
def apacheRegexProbe : Probe :=
  Probe.mk "apache version" "http" "headers.server" "regex" "Apache/\\d+\\.\\d+\\.\\d+"

/-- An exact-match probe on the server header. -/
def exactServerProbe (v : String) : Probe :=
  Probe.mk "server exact" "http" "headers.server" "exact" v

/-- An http probe and a tls probe, the pair of the create_scan_plan spec
example. -/
def sampleHttpProbe : Probe :=
  Probe.mk "http probe" "http" "headers.server" "exact" "nginx"

/-- See sampleHttpProbe. -/
def sampleTlsProbe : Probe :=
  Probe.mk "tls probe" "tls" "certificate.serial" "exact" "123"

/-- A provider that accepts every probe and answers with an empty payload. -/
def anyProvider : BaseProvider :=
  BaseProvider.mk (fun _ => true) (fun _ _ => Except.ok (ProbeResult.mk true [] none))

/-- A provider that accepts only tls probes. -/
def tlsOnlyProvider : BaseProvider :=
  BaseProvider.mk (fun p => p.protocol == "tls")
    (fun _ _ => Except.ok (ProbeResult.mk true [] none))

/-- A provider whose query always raises, modelling an out-of-contract
provider exception. -/
def raisingProvider : BaseProvider :=
  BaseProvider.mk (fun _ => true) (fun _ _ => Except.error "boom")

/-- A stand-in for the SHA-256 hex digest in witnesses: a constant
64-character string, matching the digest length. -/
def sha64a : String → String :=
  fun _ => String.mk (List.replicate 64 'a')

/-- A probe that matches the sample Apache response exactly. -/
def probeM1 : Probe :=
  Probe.mk "m1" "http" "headers.server" "exact" "Apache"

/-- A probe that does not match the sample Apache response. -/
def probeM2 : Probe :=
  Probe.mk "m2" "http" "headers.server" "exact" "nginx"

/-- Two evaluated pairs, one matching and one not: the fixture of the
evaluate_fingerprint spec examples. -/
def prsSample : List (Probe × ProbeResult) :=
  [(probeM1, okResult "Apache"), (probeM2, okResult "Apache")]

/-- A fingerprint with match logic all over the two sample probes. -/
def fpAll : Fingerprint :=
  Fingerprint.mk "fp-all" "sample" "1" [probeM1, probeM2] "all"

/-- A fingerprint with match logic any over the two sample probes. -/
def fpAny : Fingerprint :=
  Fingerprint.mk "fp-any" "sample" "1" [probeM1, probeM2] "any"

/-- The fingerprint of the create_scan_plan spec example: an http probe
followed by a tls probe. -/
def fpHT : Fingerprint :=
  Fingerprint.mk "fp-ht" "sample" "1" [sampleHttpProbe, sampleTlsProbe] "all"

/-- An Evidence record carrying the given raw_data payload. -/
def evRaw (d : JDict) : Evidence :=
  Evidence.mk "p" "t" "" true false "" "" "" d

/-!  Helper lemmas: correctness of the regular-expression engine with
     respect to the declarative semantics Lang.  -/

theorem lang_void_inv {x : List Char} (h : Lang Rx.Re.void x) : False := by
  cases h

theorem lang_eps_inv {x : List Char} (h : Lang Rx.Re.eps x) : x = [] := by
  cases h; rfl

theorem lang_chr_inv {c : Char} {x : List Char} (h : Lang (Rx.Re.chr c) x) : x = [c] := by
  cases h; rfl

theorem lang_digit_inv {x : List Char} (h : Lang Rx.Re.digit x) :
    ∃ c, x = [c] ∧ c.isDigit = true := by
  cases h with
  | digit c hc => exact ⟨c, rfl, hc⟩

theorem lang_anyc_inv {x : List Char} (h : Lang Rx.Re.anyc x) :
    ∃ c, x = [c] ∧ c ≠ '\n' := by
  cases h with
  | anyc c hc => exact ⟨c, rfl, hc⟩

theorem lang_seq_inv {a b : Rx.Re} {x : List Char} (h : Lang (Rx.Re.seq a b) x) :
    ∃ s t, x = s ++ t ∧ Lang a s ∧ Lang b t := by
  cases h with
  | seq h1 h2 => exact ⟨_, _, rfl, h1, h2⟩

theorem lang_alt_inv {a b : Rx.Re} {x : List Char} (h : Lang (Rx.Re.alt a b) x) :
    Lang a x ∨ Lang b x := by
  cases h with
  | alt_left h1 => exact Or.inl h1
  | alt_right h2 => exact Or.inr h2

theorem lang_star_elim {r : Rx.Re} {x : List Char} (h : Lang r x) :
    ∀ a, r = Rx.Re.star a → x ≠ [] →
      ∃ s t, x = s ++ t ∧ s ≠ [] ∧ Lang a s ∧ Lang (Rx.Re.star a) t := by
  induction h with
  | eps => intro a hr; exact absurd hr (by simp)
  | chr c => intro a hr; exact absurd hr (by simp)
  | digit c hc => intro a hr; exact absurd hr (by simp)
  | anyc c hc => intro a hr; exact absurd hr (by simp)
  | seq h1 h2 ih1 ih2 => intro a hr; exact absurd hr (by simp)
  | alt_left h1 ih1 => intro a hr; exact absurd hr (by simp)
  | alt_right h2 ih2 => intro a hr; exact absurd hr (by simp)
  | star_nil => intro a hr hx; exact absurd rfl hx
  | @star_cons a0 s t h1 h2 ih1 ih2 =>
      intro a hr hx
      have ha : a0 = a := by injection hr
      by_cases hs : s = []
      · subst hs
        simpa using ih2 a hr (by simpa using hx)
      · exact ⟨s, t, rfl, hs, ha ▸ h1, ha ▸ h2⟩

theorem rx_nullable_iff : ∀ r : Rx.Re, Rx.nullable r = true ↔ Lang r [] := by
  intro r
  induction r with
  | void =>
      constructor
      · intro h; exact absurd h (by simp [Rx.nullable])
      · intro h; exact (lang_void_inv h).elim
  | eps =>
      constructor
      · intro _; exact Lang.eps
      · intro _; rfl
  | chr c =>
      constructor
      · intro h; exact absurd h (by simp [Rx.nullable])
      · intro h; simpa using lang_chr_inv h
  | digit =>
      constructor
      · intro h; exact absurd h (by simp [Rx.nullable])
      · intro h; simpa using lang_digit_inv h
  | anyc =>
      constructor
      · intro h; exact absurd h (by simp [Rx.nullable])
      · intro h; simpa using lang_anyc_inv h
  | seq a b iha ihb =>
      simp only [Rx.nullable, Bool.and_eq_true, iha, ihb]
      constructor
      · rintro ⟨h1, h2⟩; simpa using Lang.seq h1 h2
      · intro h
        obtain ⟨s, t, hst, h1, h2⟩ := lang_seq_inv h
        obtain ⟨hs, ht⟩ := List.append_eq_nil.1 hst.symm
        subst hs; subst ht; exact ⟨h1, h2⟩
  | alt a b iha ihb =>
      simp only [Rx.nullable, Bool.or_eq_true, iha, ihb]
      constructor
      · rintro (h | h)
        · exact Lang.alt_left h
        · exact Lang.alt_right h
      · intro h; exact lang_alt_inv h
  | star a iha =>
      constructor
      · intro _; exact Lang.star_nil
      · intro _; rfl

theorem rx_deriv_iff : ∀ (r : Rx.Re) (c : Char) (s : List Char),
    Lang (Rx.derivStep r c) s ↔ Lang r (c :: s) := by
  intro r
  induction r with
  | void =>
      intro c s
      constructor
      · intro h; exact (lang_void_inv h).elim
      · intro h; exact (lang_void_inv h).elim
  | eps =>
      intro c s
      constructor
      · intro h; exact (lang_void_inv h).elim
      · intro h; exact absurd (lang_eps_inv h) (by simp)
  | chr c0 =>
      intro c s
      simp only [Rx.derivStep]
      by_cases hc : c = c0
      · subst hc
        simp only [if_pos rfl]
        constructor
        · intro h; rw [lang_eps_inv h]; exact Lang.chr c
        · intro h
          have h2 := lang_chr_inv h
          simp only [List.cons.injEq] at h2
          rw [h2.2]; exact Lang.eps
      · simp only [if_neg hc]
        constructor
        · intro h; exact (lang_void_inv h).elim
        · intro h
          have h2 := lang_chr_inv h
          simp only [List.cons.injEq] at h2
          exact absurd h2.1 hc
  | digit =>
      intro c s
      simp only [Rx.derivStep]
      by_cases hc : c.isDigit
      · simp only [if_pos hc]
        constructor
        · intro h; rw [lang_eps_inv h]; exact Lang.digit c hc
        · intro h
          obtain ⟨c2, hcs, _⟩ := lang_digit_inv h
          simp only [List.cons.injEq] at hcs
          rw [hcs.2]; exact Lang.eps
      · simp only [if_neg hc]
        constructor
        · intro h; exact (lang_void_inv h).elim
        · intro h
          obtain ⟨c2, hcs, hd⟩ := lang_digit_inv h
          simp only [List.cons.injEq] at hcs
          rw [hcs.1] at hc
          exact absurd hd hc
  | anyc =>
      intro c s
      simp only [Rx.derivStep]
      by_cases hc : c = '\n'
      · simp only [if_pos hc]
        constructor
        · intro h; exact (lang_void_inv h).elim
        · intro h
          obtain ⟨c2, hcs, hn⟩ := lang_anyc_inv h
          simp only [List.cons.injEq] at hcs
          rw [hcs.1] at hc
          exact absurd hc hn
      · simp only [if_neg hc]
        constructor
        · intro h; rw [lang_eps_inv h]; exact Lang.anyc c hc
        · intro h
          obtain ⟨c2, hcs, _⟩ := lang_anyc_inv h
          simp only [List.cons.injEq] at hcs
          rw [hcs.2]; exact Lang.eps
  | seq a b iha ihb =>
      intro c s
      simp only [Rx.derivStep]
      by_cases hn : Rx.nullable a = true
      · simp only [if_pos hn]
        constructor
        · intro h
          rcases lang_alt_inv h with h1 | h2
          · obtain ⟨u, v, huv, hu, hv⟩ := lang_seq_inv h1
            subst huv
            have hau : Lang a (c :: u) := (iha c u).1 hu
            simpa using Lang.seq hau hv
          · have hb : Lang b (c :: s) := (ihb c s).1 h2
            have ha0 : Lang a [] := (rx_nullable_iff a).1 hn
            simpa using Lang.seq ha0 hb
        · intro h
          obtain ⟨u, v, huv, hu, hv⟩ := lang_seq_inv h
          cases u with
          | nil =>
              simp only [List.nil_append] at huv
              subst huv
              exact Lang.alt_right ((ihb c s).2 hv)
          | cons u0 us =>
              simp only [List.cons_append, List.cons.injEq] at huv
              obtain ⟨rfl, rfl⟩ := huv
              exact Lang.alt_left (Lang.seq ((iha c us).2 hu) hv)
      · simp only [if_neg hn]
        constructor
        · intro h
          obtain ⟨u, v, huv, hu, hv⟩ := lang_seq_inv h
          subst huv
          simpa using Lang.seq ((iha c u).1 hu) hv
        · intro h
          obtain ⟨u, v, huv, hu, hv⟩ := lang_seq_inv h
          cases u with
          | nil =>
              exact absurd ((rx_nullable_iff a).2 hu) hn
          | cons u0 us =>
              simp only [List.cons_append, List.cons.injEq] at huv
              obtain ⟨rfl, rfl⟩ := huv
              exact Lang.seq ((iha c us).2 hu) hv
  | alt a b iha ihb =>
      intro c s
      simp only [Rx.derivStep]
      constructor
      · intro h
        rcases lang_alt_inv h with h1 | h2
        · exact Lang.alt_left ((iha c s).1 h1)
        · exact Lang.alt_right ((ihb c s).1 h2)
      · intro h
        rcases lang_alt_inv h with h1 | h2
        · exact Lang.alt_left ((iha c s).2 h1)
        · exact Lang.alt_right ((ihb c s).2 h2)
  | star a iha =>
      intro c s
      simp only [Rx.derivStep]
      constructor
      · intro h
        obtain ⟨u, v, huv, hu, hv⟩ := lang_seq_inv h
        subst huv
        have hau : Lang a (c :: u) := (iha c u).1 hu
        simpa using Lang.star_cons hau hv
      · intro h
        obtain ⟨s1, t, hst, hs1, h1, h2⟩ := lang_star_elim h a rfl (by simp)
        cases s1 with
        | nil => exact absurd rfl hs1
        | cons b bs =>
            simp only [List.cons_append, List.cons.injEq] at hst
            obtain ⟨rfl, rfl⟩ := hst
            exact Lang.seq ((iha c bs).2 h1) h2

theorem rx_matchesPref_iff : ∀ (s : List Char) (r : Rx.Re),
    Rx.matchesPref r s = true ↔ ∃ p q, s = p ++ q ∧ Lang r p := by
  intro s
  induction s with
  | nil =>
      intro r
      simp only [Rx.matchesPref]
      rw [rx_nullable_iff]
      constructor
      · intro h; exact ⟨[], [], rfl, h⟩
      · rintro ⟨p, q, hpq, hp⟩
        obtain ⟨rfl, rfl⟩ := List.append_eq_nil.1 hpq.symm
        exact hp
  | cons c cs ih =>
      intro r
      simp only [Rx.matchesPref, Bool.or_eq_true]
      rw [rx_nullable_iff, ih]
      constructor
      · rintro (h | ⟨p, q, hpq, hp⟩)
        · exact ⟨[], c :: cs, rfl, h⟩
        · subst hpq
          exact ⟨c :: p, q, rfl, (rx_deriv_iff r c p).1 hp⟩
      · rintro ⟨p, q, hpq, hp⟩
        cases p with
        | nil =>
            exact Or.inl hp
        | cons p0 ps =>
            simp only [List.cons_append, List.cons.injEq] at hpq
            obtain ⟨rfl, rfl⟩ := hpq
            exact Or.inr ⟨ps, q, rfl, (rx_deriv_iff r c ps).2 hp⟩

theorem mem_suffixes : ∀ (l t : List Char), t ∈ Rx.suffixes l ↔ t <:+ l := by
  intro l
  induction l with
  | nil =>
      intro t
      simp [Rx.suffixes, List.suffix_nil]
  | cons c cs ih =>
      intro t
      simp only [Rx.suffixes, List.mem_cons, ih, List.suffix_cons_iff]

theorem rx_search_iff : ∀ (pattern v : String) (r : Rx.Re),
    Rx.parseRx pattern.toList [] = some r →
    (Rx.search pattern v = true ↔ ∃ pre mid post : List Char,
       v.toList = pre ++ mid ++ post ∧ Lang r mid) := by
  intro pattern v r hp
  unfold Rx.search
  rw [hp]
  simp only [List.any_eq_true]
  constructor
  · rintro ⟨t, ht, hm⟩
    obtain ⟨pre, hpre⟩ := (mem_suffixes _ t).1 ht
    obtain ⟨mid, post, hmp, hmid⟩ := (rx_matchesPref_iff t r).1 hm
    refine ⟨pre, mid, post, ?_, hmid⟩
    rw [← hpre, hmp, List.append_assoc]
  · rintro ⟨pre, mid, post, hv, hmid⟩
    refine ⟨mid ++ post, ?_, ?_⟩
    · exact (mem_suffixes _ _).2 ⟨pre, by rw [← List.append_assoc, ← hv]⟩
    · exact (rx_matchesPref_iff _ r).2 ⟨mid, post, rfl, hmid⟩

theorem isSubstr_iff : ∀ needle hay : List Char,
    isSubstr needle hay = true ↔ ∃ pre post, hay = pre ++ needle ++ post := by
  intro needle hay
  simp only [isSubstr, List.any_eq_true]
  constructor
  · rintro ⟨t, ht, hpre⟩
    obtain ⟨pre, hpre2⟩ := (mem_suffixes hay t).1 ht
    obtain ⟨post, hpost⟩ := List.isPrefixOf_iff_prefix.1 hpre
    exact ⟨pre, post, by rw [← hpre2, ← hpost, List.append_assoc]⟩
  · rintro ⟨pre, post, hh⟩
    refine ⟨needle ++ post, (mem_suffixes hay _).2 ⟨pre, by rw [← List.append_assoc, ← hh]⟩, ?_⟩
    exact List.isPrefixOf_iff_prefix.2 ⟨post, rfl⟩

/-!  Claims C4 and C5: Evaluator.evaluate_probe.  -/

/-- C5: a probe result whose success field is false evaluates to
(false, "Probe failed: " followed by the error string, or
"Unknown error" when no error was given); a successful result whose
field value cannot be extracted evaluates to
(false, "Field not found in response"). -/
theorem c5_evaluate_probe_failure_paths :
    ∀ (probe_result : ProbeResult) (probe : Probe),
    (probe_result.success = false →
       evaluate_probe probe_result probe
         = (false, "Probe failed: " ++ probe_result.error.getD "Unknown error")) ∧
    (probe_result.success = true →
       extract_field_value probe probe_result.data = none →
       evaluate_probe probe_result probe = (false, "Field not found in response")) := by
  intro probe_result probe
  constructor
  · intro h
    simp [evaluate_probe, h]
  · intro h hf
    simp [evaluate_probe, h, hf]

/-- Witness for C5, at the spec example: success false with error
Timeout gives exactly "Probe failed: Timeout", and a success with an
empty payload gives exactly "Field not found in response". -/
theorem c5_evaluate_probe_failure_paths_witness :
    (ProbeResult.mk false [] (some "Timeout")).success = false ∧
    evaluate_probe (ProbeResult.mk false [] (some "Timeout")) (exactServerProbe "x")
      = (false, "Probe failed: Timeout") ∧
    (ProbeResult.mk true [] none).success = true ∧
    extract_field_value (exactServerProbe "x") (ProbeResult.mk true [] none).data = none ∧
    evaluate_probe (ProbeResult.mk true [] none) (exactServerProbe "x")
      = (false, "Field not found in response") :=
  ⟨rfl,
   ((c5_evaluate_probe_failure_paths (ProbeResult.mk false [] (some "Timeout"))
       (exactServerProbe "x")).1 rfl).trans (by rfl),
   rfl, rfl,
   (c5_evaluate_probe_failure_paths (ProbeResult.mk true [] none)
       (exactServerProbe "x")).2 rfl rfl⟩

/-- C4: for a successful result with an extracted field value, exact
matches by equality, contains by substring, regex by an unanchored
search of the pattern (some infix of the value is in the language of
the pattern), an unrecognized match type yields the fixed error pair,
and every determinable match carries evidence field=value.  The regex
clause holds for the patterns parseRx models faithfully (it refuses
every other construct rather than misreading it) and for ASCII field
values, on which the modelled digit class agrees with the Python \d
class. -/
theorem c4_evaluate_probe_match_types :
    ∀ (probe_result : ProbeResult) (probe : Probe) (v : String),
    probe_result.success = true →
    extract_field_value probe probe_result.data = some v →
    ((probe.match_type = "exact" →
        evaluate_probe probe_result probe = ((v == probe.value), probe.field ++ "=" ++ v) ∧
        ((evaluate_probe probe_result probe).1 = true ↔ v = probe.value)) ∧
     (probe.match_type = "contains" →
        evaluate_probe probe_result probe
          = (isSubstr probe.value.toList v.toList, probe.field ++ "=" ++ v) ∧
        ((evaluate_probe probe_result probe).1 = true ↔
           ∃ pre post, v.toList = pre ++ probe.value.toList ++ post)) ∧
     (probe.match_type = "regex" →
        (evaluate_probe probe_result probe).2 = probe.field ++ "=" ++ v ∧
        ∀ r, Rx.parseRx probe.value.toList [] = some r →
          (∀ c ∈ v.toList, c.toNat ≤ 127) →
          ((evaluate_probe probe_result probe).1 = true ↔
             ∃ pre mid post, v.toList = pre ++ mid ++ post ∧ Lang r mid)) ∧
     (probe.match_type ≠ "exact" → probe.match_type ≠ "contains" →
        probe.match_type ≠ "regex" →
        evaluate_probe probe_result probe
          = (false, "Unknown match type: " ++ probe.match_type))) := by
  intro probe_result probe v hs hf
  refine ⟨?_, ?_, ?_, ?_⟩
  · intro hm
    have he : evaluate_probe probe_result probe
        = ((v == probe.value), probe.field ++ "=" ++ v) := by
      simp [evaluate_probe, hs, hf, hm]
    refine ⟨he, ?_⟩
    rw [he]
    exact beq_iff_eq
  · intro hm
    have hne : probe.match_type ≠ "exact" := by rw [hm]; decide
    have he : evaluate_probe probe_result probe
        = (isSubstr probe.value.toList v.toList, probe.field ++ "=" ++ v) := by
      simp [evaluate_probe, hs, hf, hm]
    refine ⟨he, ?_⟩
    rw [he]
    exact isSubstr_iff probe.value.toList v.toList
  · intro hm
    have he : evaluate_probe probe_result probe
        = (Rx.search probe.value v, probe.field ++ "=" ++ v) := by
      simp [evaluate_probe, hs, hf, hm]
    refine ⟨by rw [he], ?_⟩
    intro r hr _hascii
    rw [he]
    exact rx_search_iff probe.value v r hr
  · intro h1 h2 h3
    simp [evaluate_probe, hs, hf, h1, h2, h3]

/-- Witness for C4, at the spec example: the pattern Apache/\d+\.\d+\.\d+
parses, the ASCII hypothesis holds of the server value Apache/2.4.41,
the unanchored search succeeds with evidence
headers.server=Apache/2.4.41, and a letter-class escape such as \s is
refused by the parser rather than misread as a literal. -/
theorem c4_evaluate_probe_match_types_witness :
    (okResult "Apache/2.4.41").success = true ∧
    extract_field_value apacheRegexProbe (okResult "Apache/2.4.41").data
      = some "Apache/2.4.41" ∧
    (Rx.parseRx apacheRegexProbe.value.toList []).isSome = true ∧
    (∀ c ∈ ("Apache/2.4.41" : String).toList, c.toNat ≤ 127) ∧
    (evaluate_probe (okResult "Apache/2.4.41") apacheRegexProbe).2
      = "headers.server=Apache/2.4.41" ∧
    evaluate_probe (okResult "Apache/2.4.41") apacheRegexProbe
      = (true, "headers.server=Apache/2.4.41") ∧
    Rx.parseRx ("\\s" : String).toList [] = none ∧
    Rx.parseRx ("\\w+" : String).toList [] = none :=
  ⟨rfl, rfl, by decide, by decide,
   (((c4_evaluate_probe_match_types (okResult "Apache/2.4.41") apacheRegexProbe
       "Apache/2.4.41" rfl rfl).2.2.1 rfl).1).trans (by rfl),
   by decide, by decide, by decide⟩

/-!  Claim C3: Evaluator.evaluate_fingerprint.  -/

/-- all over a mapped list, with an arbitrary result type. -/
theorem list_all_map_comp {a b : Type} (l : List a) (f : a → b) (p : b → Bool) :
    (l.map f).all p = l.all (fun x => p (f x)) := by
  induction l with
  | nil => rfl
  | cons x xs ih => simp [List.all_cons, ih]

/-- any over a mapped list, with an arbitrary result type. -/
theorem list_any_map_comp {a b : Type} (l : List a) (f : a → b) (p : b → Bool) :
    (l.map f).any p = l.any (fun x => p (f x)) := by
  induction l with
  | nil => rfl
  | cons x xs ih => simp [List.any_cons, ih]

/-- C3: every pair is evaluated (one record per pair, no short-circuit);
match logic all is conjunction (vacuously true on the empty list), any
is disjunction, anything else falls back to conjunction; matched_probes
holds exactly the names of the individually matching probes; evidence
is the semicolon-joined per-probe evidence in probe order. -/
theorem c3_evaluate_fingerprint_aggregation :
    ∀ (prs : List (Probe × ProbeResult)) (fp : Fingerprint),
    ((evaluate_fingerprint prs fp).probe_results
       = prs.map (fun pr => ProbeRecord.mk pr.1.name (evaluate_probe pr.2 pr.1).1
           (evaluate_probe pr.2 pr.1).2)) ∧
    ((evaluate_fingerprint prs fp).probe_results.length = prs.length) ∧
    (fp.match_logic = "all" →
       (evaluate_fingerprint prs fp).overall_match
         = prs.all (fun pr => (evaluate_probe pr.2 pr.1).1)) ∧
    (fp.match_logic = "any" →
       (evaluate_fingerprint prs fp).overall_match
         = prs.any (fun pr => (evaluate_probe pr.2 pr.1).1)) ∧
    (fp.match_logic ≠ "all" → fp.match_logic ≠ "any" →
       (evaluate_fingerprint prs fp).overall_match
         = prs.all (fun pr => (evaluate_probe pr.2 pr.1).1)) ∧
    (prs = [] → fp.match_logic = "all" →
       (evaluate_fingerprint prs fp).overall_match = true) ∧
    ((evaluate_fingerprint prs fp).matched_probes
       = (prs.filter (fun pr => (evaluate_probe pr.2 pr.1).1)).map (fun pr => pr.1.name)) ∧
    ((evaluate_fingerprint prs fp).evidence
       = String.intercalate "; " (prs.map (fun pr => (evaluate_probe pr.2 pr.1).2))) := by
  intro prs fp
  refine ⟨rfl, by simp [evaluate_fingerprint], ?_, ?_, ?_, ?_, ?_, ?_⟩
  · intro hm
    simp only [evaluate_fingerprint, hm]
    simp only [reduceIte]
    rw [list_all_map_comp]
  · intro hm
    by_cases hall : fp.match_logic = "all"
    · rw [hall] at hm; exact absurd hm (by decide)
    · simp only [evaluate_fingerprint, hm]
      rw [if_neg (show ¬("any" = "all") by decide)]
      rw [list_any_map_comp]
      rw [if_pos trivial]
  · intro h1 h2
    simp only [evaluate_fingerprint]
    rw [if_neg h1, if_neg h2]
    rw [list_all_map_comp]
  · intro hp hm
    subst hp
    simp [evaluate_fingerprint, hm]
  · simp only [evaluate_fingerprint, List.filter_map, List.map_map]
    rfl
  · simp only [evaluate_fingerprint, List.map_map]
    rfl

/-- Witness for C3, at the spec examples: with logic all and one matching
and one failing probe the verdict is false and matched_probes holds only
the matching name; with logic any the verdict is true; with zero probe
results and logic all the verdict is vacuously true. -/
theorem c3_evaluate_fingerprint_aggregation_witness :
    (evaluate_fingerprint prsSample fpAll).overall_match = false ∧
    (evaluate_fingerprint prsSample fpAll).matched_probes = ["m1"] ∧
    (evaluate_fingerprint prsSample fpAny).overall_match = true ∧
    (evaluate_fingerprint [] fpAll).overall_match = true :=
  ⟨((c3_evaluate_fingerprint_aggregation prsSample fpAll).2.2.1 rfl).trans (by rfl),
   ((c3_evaluate_fingerprint_aggregation prsSample fpAll).2.2.2.2.2.2.1).trans (by rfl),
   ((c3_evaluate_fingerprint_aggregation prsSample fpAny).2.2.2.1 rfl).trans (by rfl),
   (c3_evaluate_fingerprint_aggregation [] fpAll).2.2.2.2.2.1 rfl rfl⟩

/-!  Claims C6 and C9: ScanPlan.validate and execute_plan refusal.  -/

/-- C6: validate is true exactly when the plan has at least one target
entry, is false on the freshly constructed empty plan without raising,
and execute_plan on an invalid plan returns the empty mapping and
appends no evidence. -/
theorem c6_validate_gates_execution :
    ∀ (providers : List BaseProvider) (plan : ScanPlan),
    (plan.validate = true ↔ plan.target_probes ≠ []) ∧
    (ScanPlan.empty.validate = false) ∧
    (plan.validate = false → execute_plan providers plan = ([], [])) := by
  intro providers plan
  refine ⟨?_, rfl, ?_⟩
  · cases hp : plan.target_probes with
    | nil => simp [ScanPlan.validate, hp]
    | cons a l => simp [ScanPlan.validate, hp]
  · intro h
    simp [execute_plan, h]

/-- Witness for C6: the empty plan fails validation and is refused. -/
theorem c6_validate_gates_execution_witness :
    ScanPlan.empty.validate = false ∧
    execute_plan [] ScanPlan.empty = ([], []) :=
  ⟨(c6_validate_gates_execution [] ScanPlan.empty).2.1,
   (c6_validate_gates_execution [] ScanPlan.empty).2.2 rfl⟩

/-- C9: add_target with an empty probe list stores the target, making the
plan valid, and execute_plan then returns that target mapped to an
empty result list while appending no evidence. -/
theorem c9_add_target_empty_probe_list :
    ∀ (providers : List BaseProvider) (t : String),
    (ScanPlan.empty.add_target t []).validate = true ∧
    execute_plan providers (ScanPlan.empty.add_target t []) = ([(t, [])], []) := by
  intro providers t
  constructor
  · rfl
  · simp [execute_plan, ScanPlan.validate, ScanPlan.add_target, ScanPlan.empty, setKey,
      ScanPlan.get_targets, ScanPlan.get_probes_for_target, execute_target_step,
      List.find?]

/-!  Claim C2: Planner.create_scan_plan.  -/

/-- Dict assignment under a fresh key appends the binding at the end. -/
theorem setKey_of_not_mem (k : String) (v : List Probe) :
    ∀ l : List (String × List Probe), (∀ q ∈ l, q.1 ≠ k) →
    setKey k v l = l ++ [(k, v)] := by
  intro l
  induction l with
  | nil => intro _; rfl
  | cons q rest ih =>
      intro h
      obtain ⟨k2, v2⟩ := q
      have hk : k2 ≠ k := h (k2, v2) (by simp)
      simp only [setKey]
      rw [if_neg hk, ih (fun p hp => h p (by simp [hp]))]
      simp

/-- Folding dict assignments over pairwise-fresh keys appends them all in
order. -/
theorem foldl_setKey_fresh :
    ∀ (items : List (String × List Probe)) (acc : List (String × List Probe)),
    (items.map (fun it => it.1)).Nodup →
    (∀ it ∈ items, ∀ q ∈ acc, q.1 ≠ it.1) →
    items.foldl (fun l it => setKey it.1 it.2 l) acc = acc ++ items := by
  intro items
  induction items with
  | nil => intro acc _ _; simp
  | cons it rest ih =>
      intro acc hnodup hfresh
      simp only [List.foldl_cons]
      rw [setKey_of_not_mem it.1 it.2 acc (fun q hq => hfresh it (by simp) q hq)]
      rw [ih (acc ++ [(it.1, it.2)])
        (List.nodup_cons.1 (by simpa using hnodup)).2
        ?_]
      · simp
      · intro it2 h2 q hq
        rcases List.mem_append.1 hq with hqa | hqs
        · exact hfresh it2 (by simp [h2]) q hqa
        · have hq1 : q = (it.1, it.2) := by simpa using hqs
          have hne : it.1 ∉ rest.map (fun x => x.1) :=
            (List.nodup_cons.1 (by simpa using hnodup)).1
          intro hcontra
          rw [hq1] at hcontra
          exact hne (by
            simp only [List.mem_map]
            exact ⟨it2, h2, hcontra.symm⟩)

/-- The keys of a constant-value pairing are the inputs themselves. -/
theorem map_fst_pair {b : Type} (targets : List String) (v : b) :
    (targets.map (fun t => (t, v))).map (fun it => it.1) = targets := by
  induction targets with
  | nil => rfl
  | cons t rest ih => simp [ih]

/-- With no executable probe, the target loop of create_scan_plan adds
nothing. -/
theorem foldl_create_step_empty
    (providers : List BaseProvider) (fingerprint : Fingerprint) (m : Nat)
    (hvp : ((fingerprint.probes.take m).filter
      (fun probe => providers.any (fun p => p.can_handle probe))).isEmpty = true) :
    ∀ (targets : List String) (acc : ScanPlan),
    targets.foldl (create_plan_step providers fingerprint m) acc = acc := by
  intro targets
  induction targets with
  | nil => intro acc; rfl
  | cons t rest ih =>
      intro acc
      simp only [List.foldl_cons, create_plan_step]
      rw [if_pos hvp]
      exact ih acc

/-- With a nonempty executable probe list, the target loop of
create_scan_plan is a fold of dict assignments of that same list. -/
theorem foldl_create_step_nonempty
    (providers : List BaseProvider) (fingerprint : Fingerprint) (m : Nat)
    (hvp : ¬ ((fingerprint.probes.take m).filter
      (fun probe => providers.any (fun p => p.can_handle probe))).isEmpty = true) :
    ∀ (targets : List String) (acc : ScanPlan),
    (targets.foldl (create_plan_step providers fingerprint m) acc).target_probes
      = (targets.map (fun t => (t, (fingerprint.probes.take m).filter
          (fun probe => providers.any (fun p => p.can_handle probe))))).foldl
          (fun l it => setKey it.1 it.2 l) acc.target_probes := by
  intro targets
  induction targets with
  | nil => intro acc; rfl
  | cons t rest ih =>
      intro acc
      simp only [List.foldl_cons, List.map_cons, create_plan_step]
      rw [if_neg hvp]
      exact ih (acc.add_target t _)

/-- C2: create_scan_plan truncates the fingerprint probes to the first
max_probes_per_target entries, then keeps those some registered provider
can handle, in fingerprint order, per target; a target with no surviving
probe is omitted entirely; a probe cut by truncation never appears even
when earlier probes are not executable. -/
theorem c2_create_scan_plan_truncate_then_filter :
    ∀ (providers : List BaseProvider) (targets : List String)
      (fingerprint : Fingerprint) (max_probes_per_target : Nat),
    targets.Nodup →
    ((create_scan_plan providers targets fingerprint max_probes_per_target).target_probes
       = if ((fingerprint.probes.take max_probes_per_target).filter
             (fun probe => providers.any (fun p => p.can_handle probe))).isEmpty
         then []
         else targets.map (fun t => (t,
           (fingerprint.probes.take max_probes_per_target).filter
             (fun probe => providers.any (fun p => p.can_handle probe))))) ∧
    (∀ t ps probe, (t, ps) ∈ (create_scan_plan providers targets fingerprint
        max_probes_per_target).target_probes → probe ∈ ps →
        probe ∈ fingerprint.probes.take max_probes_per_target ∧
        providers.any (fun p => p.can_handle probe) = true) := by
  intro providers targets fingerprint m hnodup
  have hmain : (create_scan_plan providers targets fingerprint m).target_probes
      = if ((fingerprint.probes.take m).filter
            (fun probe => providers.any (fun p => p.can_handle probe))).isEmpty
        then []
        else targets.map (fun t => (t,
          (fingerprint.probes.take m).filter
            (fun probe => providers.any (fun p => p.can_handle probe)))) := by
    by_cases hvp : ((fingerprint.probes.take m).filter
        (fun probe => providers.any (fun p => p.can_handle probe))).isEmpty = true
    · rw [if_pos hvp]
      unfold create_scan_plan
      rw [foldl_create_step_empty providers fingerprint m hvp]
      rfl
    · rw [if_neg hvp]
      unfold create_scan_plan
      rw [foldl_create_step_nonempty providers fingerprint m hvp]
      rw [foldl_setKey_fresh _ _ ?_
        (by intro it _ q hq; exact absurd hq (List.not_mem_nil q))]
      · rfl
      · rw [map_fst_pair]
        exact hnodup
  refine ⟨hmain, ?_⟩
  intro t ps probe hmem hp
  rw [hmain] at hmem
  by_cases hvp : ((fingerprint.probes.take m).filter
      (fun probe => providers.any (fun p => p.can_handle probe))).isEmpty = true
  · rw [if_pos hvp] at hmem
    exact absurd hmem (by simp)
  · rw [if_neg hvp] at hmem
    obtain ⟨t2, _, heq⟩ := List.mem_map.1 hmem
    have hps : ps = (fingerprint.probes.take m).filter
        (fun probe => providers.any (fun p => p.can_handle probe)) := by
      have := congrArg Prod.snd heq
      simpa using this.symm
    rw [hps] at hp
    exact ⟨(List.mem_filter.1 hp).1, (List.mem_filter.1 hp).2⟩

/-- Witness for C2, at the spec example: max one probe on an http-then-tls
fingerprint with a provider supporting both yields exactly the http
probe; with a tls-only provider the truncated probe is not executable
and the target is omitted, showing truncate-before-filter. -/
theorem c2_create_scan_plan_truncate_then_filter_witness :
    (["t1"] : List String).Nodup ∧
    (create_scan_plan [anyProvider] ["t1"] fpHT 1).target_probes
      = [("t1", [sampleHttpProbe])] ∧
    (create_scan_plan [tlsOnlyProvider] ["t1"] fpHT 1).target_probes = [] :=
  ⟨by simp,
   ((c2_create_scan_plan_truncate_then_filter [anyProvider] ["t1"] fpHT 1
      (by simp)).1).trans (by rfl),
   ((c2_create_scan_plan_truncate_then_filter [tlsOnlyProvider] ["t1"] fpHT 1
      (by simp)).1).trans (by rfl)⟩

/-!  Claim C1: Planner.execute_plan failure isolation.  -/

/-- The keys of a pairing with a per-key value are the inputs themselves. -/
theorem map_fst_pairF {b : Type} (targets : List String) (f : String → b) :
    (targets.map (fun t => (t, f t))).map (fun it => it.1) = targets := by
  induction targets with
  | nil => rfl
  | cons t rest ih => simp [ih]

/-- The probe loop of execute_plan appends one raw pair per answered query
and exactly one Evidence record per probe. -/
theorem execute_probe_foldl (providers : List BaseProvider) (target : String) :
    ∀ (probes : List Probe) (tr : List (Probe × ProbeResult)) (ev : List Evidence),
    probes.foldl (execute_probe_step providers target) (tr, ev)
      = (tr ++ probes.filterMap (probe_outcome providers target),
         ev ++ probes.map (probe_evidence providers target)) := by
  intro probes
  induction probes with
  | nil => intro tr ev; simp
  | cons probe rest ih =>
      intro tr ev
      simp only [List.foldl_cons]
      cases hsel : select_provider_for_probe providers probe with
      | none =>
          have ho : probe_outcome providers target probe = none := by
            simp [probe_outcome, hsel]
          have he : probe_evidence providers target probe
              = EvidenceCollector.add_probe_result probe.name target
                  false false "" "" "No provider available" [] := by
            simp [probe_evidence, hsel, EvidenceCollector.add_probe_result]
          simp only [execute_probe_step, hsel]
          rw [ih]
          rw [List.filterMap_cons_none ho, List.map_cons, he]
          simp
      | some p =>
          cases hq : p.query target probe with
          | ok r =>
              have ho : probe_outcome providers target probe = some (probe, r) := by
                simp [probe_outcome, hsel, hq]
              have he : probe_evidence providers target probe
                  = EvidenceCollector.add_probe_result probe.name target
                      r.success false probe.value "" "" r.data := by
                simp [probe_evidence, hsel, hq, EvidenceCollector.add_probe_result]
              simp only [execute_probe_step, hsel, hq]
              rw [ih]
              rw [List.filterMap_cons_some ho, List.map_cons, he]
              simp
          | error e =>
              have ho : probe_outcome providers target probe = none := by
                simp [probe_outcome, hsel, hq]
              have he : probe_evidence providers target probe
                  = EvidenceCollector.add_probe_result probe.name target
                      false false "" "" e [] := by
                simp [probe_evidence, hsel, hq, EvidenceCollector.add_probe_result]
              simp only [execute_probe_step, hsel, hq]
              rw [ih]
              rw [List.filterMap_cons_none ho, List.map_cons, he]
              simp

/-- The target loop of execute_plan maps every target to its raw results
and flattens the per-target evidence in order. -/
theorem execute_target_foldl (providers : List BaseProvider) (plan : ScanPlan) :
    ∀ (targets : List String) (acc1 : List (String × List (Probe × ProbeResult)))
      (acc2 : List Evidence),
    targets.foldl (execute_target_step providers plan) (acc1, acc2)
      = (acc1 ++ targets.map (fun t => (t, (plan.get_probes_for_target t).filterMap
           (probe_outcome providers t))),
         acc2 ++ (targets.map (fun t => (plan.get_probes_for_target t).map
           (probe_evidence providers t))).flatten) := by
  intro targets
  induction targets with
  | nil => intro acc1 acc2; simp
  | cons t rest ih =>
      intro acc1 acc2
      simp only [List.foldl_cons, execute_target_step]
      rw [execute_probe_foldl providers t (plan.get_probes_for_target t) [] acc2]
      simp only [List.nil_append]
      rw [ih]
      simp [List.append_assoc]

/-- C1: on a valid plan, every target appears as a key of the result
mapping; per probe, an answered query appends the raw pair regardless
of its reported success together with an Evidence record mirroring that
success; a missing provider appends only a failed Evidence record with
message "No provider available"; a raised query appends only a failed
Evidence record carrying the message of the exception, and execution
continues (the run is a total function of the plan). -/
theorem c1_execute_plan_failure_isolation :
    ∀ (providers : List BaseProvider) (plan : ScanPlan),
    plan.validate = true →
    (execute_plan providers plan
       = (plan.get_targets.map (fun t => (t, (plan.get_probes_for_target t).filterMap
            (probe_outcome providers t))),
          (plan.get_targets.map (fun t => (plan.get_probes_for_target t).map
            (probe_evidence providers t))).flatten)) ∧
    ((execute_plan providers plan).1.map (fun tp => tp.1) = plan.get_targets) ∧
    (∀ target probe, select_provider_for_probe providers probe = none →
       probe_outcome providers target probe = none ∧
       probe_evidence providers target probe
         = Evidence.mk probe.name target "" false false "" "" "No provider available" []) ∧
    (∀ target probe p r, select_provider_for_probe providers probe = some p →
       p.query target probe = Except.ok r →
       probe_outcome providers target probe = some (probe, r) ∧
       probe_evidence providers target probe
         = Evidence.mk probe.name target "" r.success false probe.value "" "" r.data) ∧
    (∀ target probe p e, select_provider_for_probe providers probe = some p →
       p.query target probe = Except.error e →
       probe_outcome providers target probe = none ∧
       probe_evidence providers target probe
         = Evidence.mk probe.name target "" false false "" "" e []) := by
  intro providers plan hv
  have hmain : execute_plan providers plan
      = (plan.get_targets.map (fun t => (t, (plan.get_probes_for_target t).filterMap
           (probe_outcome providers t))),
         (plan.get_targets.map (fun t => (plan.get_probes_for_target t).map
           (probe_evidence providers t))).flatten) := by
    unfold execute_plan
    rw [hv]
    simpa using execute_target_foldl providers plan plan.get_targets [] []
  refine ⟨hmain, ?_, ?_, ?_, ?_⟩
  · rw [hmain]
    exact map_fst_pairF plan.get_targets _
  · intro target probe hsel
    constructor
    · simp [probe_outcome, hsel]
    · simp [probe_evidence, hsel]
  · intro target probe p r hsel hq
    constructor
    · simp [probe_outcome, hsel, hq]
    · simp [probe_evidence, hsel, hq]
  · intro target probe p e hsel hq
    constructor
    · simp [probe_outcome, hsel, hq]
    · simp [probe_evidence, hsel, hq]

/-- Witness for C1: a provider that raises on every query leaves the
target as a key with an empty raw-result list while both probes
contribute failed Evidence records carrying the exception message. -/
theorem c1_execute_plan_failure_isolation_witness :
    (ScanPlan.empty.add_target "t" [sampleHttpProbe, sampleTlsProbe]).validate = true ∧
    execute_plan [raisingProvider]
        (ScanPlan.empty.add_target "t" [sampleHttpProbe, sampleTlsProbe])
      = ([("t", [])],
         [Evidence.mk "http probe" "t" "" false false "" "" "boom" [],
          Evidence.mk "tls probe" "t" "" false false "" "" "boom" []]) :=
  ⟨rfl,
   ((c1_execute_plan_failure_isolation [raisingProvider]
      (ScanPlan.empty.add_target "t" [sampleHttpProbe, sampleTlsProbe]) rfl).1).trans
     (by rfl)⟩

/-!  Claim C7: Planner.optimize_plan.  -/

theorem mem_encounter_step (providers : List BaseProvider) (probe : Probe)
    (ks : List Nat) (i : Nat) :
    i ∈ encounterStep providers ks probe ↔
      i ∈ ks ∨ provider_index providers probe = some i := by
  unfold encounterStep
  cases h : provider_index providers probe with
  | none => simp
  | some j =>
      by_cases hc : ks.contains j
      · simp only [if_pos hc]
        constructor
        · exact Or.inl
        · rintro (hm | hj)
          · exact hm
          · injection hj with h2
            rw [← h2]
            exact List.elem_iff.1 hc
      · simp only [if_neg hc, List.mem_append, List.mem_singleton]
        constructor
        · rintro (hm | he)
          · exact Or.inl hm
          · exact Or.inr (by rw [he])
        · rintro (hm | hj)
          · exact Or.inl hm
          · right; injection hj with h2; exact h2.symm

theorem mem_encounter_foldl (providers : List BaseProvider) :
    ∀ (probes : List Probe) (ks : List Nat) (i : Nat),
    i ∈ probes.foldl (encounterStep providers) ks ↔
      i ∈ ks ∨ ∃ probe ∈ probes, provider_index providers probe = some i := by
  intro probes
  induction probes with
  | nil => intro ks i; simp
  | cons probe rest ih =>
      intro ks i
      simp only [List.foldl_cons]
      rw [ih, mem_encounter_step]
      constructor
      · rintro ((hm | hp) | ⟨q, hq, hqi⟩)
        · exact Or.inl hm
        · exact Or.inr ⟨probe, by simp, hp⟩
        · exact Or.inr ⟨q, by simp [hq], hqi⟩
      · rintro (hm | ⟨q, hq, hqi⟩)
        · exact Or.inl (Or.inl hm)
        · rcases List.mem_cons.1 hq with rfl | hq2
          · exact Or.inl (Or.inr hqi)
          · exact Or.inr ⟨q, hq2, hqi⟩

theorem encounter_step_nodup (providers : List BaseProvider) (probe : Probe)
    (ks : List Nat) (h : ks.Nodup) : (encounterStep providers ks probe).Nodup := by
  unfold encounterStep
  cases hx : provider_index providers probe with
  | none => exact h
  | some j =>
      by_cases hc : ks.contains j
      · simp only [if_pos hc]; exact h
      · simp only [if_neg hc]
        have hj : j ∉ ks := fun hm => hc (List.elem_iff.2 hm)
        exact (List.perm_append_singleton j ks).symm.nodup (List.nodup_cons.2 ⟨hj, h⟩)

theorem encounter_foldl_nodup (providers : List BaseProvider) :
    ∀ (probes : List Probe) (ks : List Nat), ks.Nodup →
    (probes.foldl (encounterStep providers) ks).Nodup := by
  intro probes
  induction probes with
  | nil => intro ks h; exact h
  | cons probe rest ih =>
      intro ks h
      simp only [List.foldl_cons]
      exact ih _ (encounter_step_nodup providers probe ks h)

theorem encounterKeys_nodup (providers : List BaseProvider) (probes : List Probe) :
    (encounterKeys providers probes).Nodup :=
  encounter_foldl_nodup providers probes [] (by simp)

theorem mem_encounterKeys (providers : List BaseProvider) (probes : List Probe) (i : Nat) :
    i ∈ encounterKeys providers probes ↔
      ∃ probe ∈ probes, provider_index providers probe = some i := by
  unfold encounterKeys
  rw [mem_encounter_foldl]
  simp

/-- defaultdict append under a fresh group key adds the group at the end. -/
theorem addGroup_of_not_mem (i : Nat) (probe : Probe) :
    ∀ gs : List (Nat × List Probe), (∀ g ∈ gs, g.1 ≠ i) →
    addGroup i probe gs = gs ++ [(i, [probe])] := by
  intro gs
  induction gs with
  | nil => intro _; rfl
  | cons g rest ih =>
      intro h
      obtain ⟨j, ps⟩ := g
      have hj : j ≠ i := h (j, ps) (by simp)
      simp only [addGroup]
      rw [if_neg hj, ih (fun p hp => h p (by simp [hp]))]
      simp

/-- defaultdict append under an existing group key extends that group in
place. -/
theorem addGroup_map (i : Nat) (probe : Probe) (g : Nat → List Probe) :
    ∀ ks : List Nat, ks.Nodup → i ∈ ks →
    addGroup i probe (ks.map (fun j => (j, g j)))
      = ks.map (fun j => (j, g j ++ if j = i then [probe] else [])) := by
  intro ks
  induction ks with
  | nil => intro _ h; exact absurd h (List.not_mem_nil i)
  | cons k rest ih =>
      intro hnodup hmem
      simp only [List.map_cons, addGroup]
      by_cases hk : k = i
      · subst hk
        rw [if_pos rfl]
        have hrest : rest.map (fun j => (j, g j ++ if j = k then [probe] else []))
            = rest.map (fun j => (j, g j)) := by
          apply List.map_congr_left
          intro j hj
          have hne : j ≠ k := fun he => (List.nodup_cons.1 hnodup).1 (he ▸ hj)
          simp [hne]
        rw [hrest]
        simp
      · rw [if_neg hk]
        have hm : i ∈ rest := by
          rcases List.mem_cons.1 hmem with he | hm
          · exact absurd he.symm hk
          · exact hm
        rw [ih (List.nodup_cons.1 hnodup).2 hm]
        simp [hk]

/-- The provider_probes dict built by the left-to-right scan equals the
first-encounter key order paired with the order-preserving filters:
the grouping the spec describes. -/
theorem groupByProvider_eq (providers : List BaseProvider) :
    ∀ probes : List Probe,
    groupByProvider providers probes
      = (encounterKeys providers probes).map (fun i =>
          (i, probes.filter (fun probe => provider_index providers probe == some i))) := by
  intro probes
  induction probes using List.reverseRecOn with
  | nil => rfl
  | append_singleton l probe ih =>
      unfold groupByProvider encounterKeys at *
      rw [List.foldl_append, List.foldl_append]
      simp only [List.foldl_cons, List.foldl_nil]
      rw [ih]
      cases hx : provider_index providers probe with
      | none =>
          simp only [groupStep, encounterStep, hx]
          apply List.map_congr_left
          intro i _
          rw [List.filter_append]
          have hone : List.filter (fun q => provider_index providers q == some i) [probe]
              = [] := by
            simp [List.filter_cons, hx]
          rw [hone, List.append_nil]
      | some i0 =>
          simp only [groupStep, encounterStep, hx]
          by_cases hc : (List.foldl (encounterStep providers) [] l).contains i0
          · rw [if_pos hc]
            have hmem : i0 ∈ List.foldl (encounterStep providers) [] l :=
              List.elem_iff.1 hc
            rw [addGroup_map i0 probe _ _
              (encounter_foldl_nodup providers l [] (by simp)) hmem]
            apply List.map_congr_left
            intro j _
            rw [List.filter_append]
            have hone : List.filter (fun q => provider_index providers q == some j) [probe]
                = if j = i0 then [probe] else [] := by
              simp only [List.filter_cons, List.filter_nil, hx]
              by_cases hj0 : j = i0
              · subst hj0; simp
              · have hne : i0 ≠ j := fun he => hj0 he.symm
                simp [hne, hj0]
            rw [hone]
          · rw [if_neg hc]
            have hnotmem : i0 ∉ List.foldl (encounterStep providers) [] l :=
              fun hm => hc (List.elem_iff.2 hm)
            rw [addGroup_of_not_mem i0 probe _ ?_]
            · rw [List.map_append]
              congr 1
              · apply List.map_congr_left
                intro j hj
                rw [List.filter_append]
                have hne : i0 ≠ j := fun he => hnotmem (he ▸ hj)
                have hone : List.filter (fun q => provider_index providers q == some j)
                    [probe] = [] := by
                  simp [List.filter_cons, hx, hne]
                rw [hone, List.append_nil]
              · have hl : List.filter (fun q => provider_index providers q == some i0) l
                    = [] := by
                  rw [List.filter_eq_nil_iff]
                  intro q hq hpq
                  have hqi : provider_index providers q = some i0 := by
                    exact eq_of_beq hpq
                  exact hnotmem ((mem_encounter_foldl providers l [] i0).2
                    (Or.inr ⟨q, hq, hqi⟩))
                simp [List.filter_append, hl, List.filter_cons, hx]
            · intro gentry hg
              obtain ⟨j, hj, rfl⟩ := List.mem_map.1 hg
              exact fun he => hnotmem (he ▸ hj)

/-- The probe order optimize_plan computes for one target is regrouped. -/
theorem optimize_probes_eq (providers : List BaseProvider) (probes : List Probe) :
    ((groupByProvider providers probes).map (fun g => g.2)).flatten
      = regrouped providers probes := by
  rw [groupByProvider_eq, List.map_map]
  rfl

/-- Prepending one element to the group of key i0 permutes to prepending
it to the whole concatenation. -/
theorem flatten_map_consAt (q : Probe) (g : Nat → List Probe) (i0 : Nat) :
    ∀ ks : List Nat, i0 ∈ ks → ks.Nodup →
    ((ks.map (fun i => if i = i0 then q :: g i else g i)).flatten).Perm
      (q :: (ks.map g).flatten) := by
  intro ks
  induction ks with
  | nil => intro h; exact absurd h (List.not_mem_nil i0)
  | cons k rest ih =>
      intro hmem hnodup
      by_cases hk : k = i0
      · subst hk
        have hrest : rest.map (fun i => if i = k then q :: g i else g i)
            = rest.map g := by
          apply List.map_congr_left
          intro j hj
          have hne : j ≠ k := fun he => (List.nodup_cons.1 hnodup).1 (he ▸ hj)
          simp [hne]
        simp only [List.map_cons, List.flatten_cons, if_pos rfl, hrest, List.cons_append]
        exact List.Perm.refl _
      · have hm : i0 ∈ rest := by
          rcases List.mem_cons.1 hmem with he | hm
          · exact absurd he.symm hk
          · exact hm
        simp only [List.map_cons, List.flatten_cons, if_neg hk]
        exact (List.Perm.append_left (g k)
          (ih hm (List.nodup_cons.1 hnodup).2)).trans List.perm_middle

/-- Concatenating the per-key filters over a nodup covering key list is a
permutation of the assignable elements in their original order. -/
theorem flatten_filter_perm (f : Probe → Option Nat) :
    ∀ (l : List Probe) (ks : List Nat), ks.Nodup →
    (∀ q ∈ l, ∀ i, f q = some i → i ∈ ks) →
    ((ks.map (fun i => l.filter (fun q => f q == some i))).flatten).Perm
      (l.filter (fun q => (f q).isSome)) := by
  intro l
  induction l with
  | nil =>
      intro ks _ _
      have h0 : ks.map (fun i => List.filter (fun q => f q == some i) []) =
          ks.map (fun _ => ([] : List Probe)) := rfl
      rw [h0]
      have h1 : (ks.map (fun _ => ([] : List Probe))).flatten = [] := by
        induction ks with
        | nil => rfl
        | cons k rest ih2 => simp [ih2]
      rw [h1]
      exact List.Perm.refl _
  | cons q rest ih =>
      intro ks hnodup hcov
      cases hf : f q with
      | none =>
          have hmap : ks.map (fun i => List.filter (fun q2 => f q2 == some i) (q :: rest))
              = ks.map (fun i => List.filter (fun q2 => f q2 == some i) rest) := by
            apply List.map_congr_left
            intro i _
            simp [List.filter_cons, hf]
          rw [hmap]
          have hfil : List.filter (fun q2 => (f q2).isSome) (q :: rest)
              = List.filter (fun q2 => (f q2).isSome) rest := by
            simp [List.filter_cons, hf]
          rw [hfil]
          exact ih ks hnodup (fun q2 h2 => hcov q2 (by simp [h2]))
      | some i0 =>
          have hi0 : i0 ∈ ks := hcov q (by simp) i0 hf
          have hmap : ks.map (fun i => List.filter (fun q2 => f q2 == some i) (q :: rest))
              = ks.map (fun i => if i = i0
                  then q :: List.filter (fun q2 => f q2 == some i) rest
                  else List.filter (fun q2 => f q2 == some i) rest) := by
            apply List.map_congr_left
            intro i _
            by_cases hi : i = i0
            · subst hi
              simp [List.filter_cons, hf]
            · have hne : i0 ≠ i := fun he => hi he.symm
              simp [List.filter_cons, hf, hne, hi]
          rw [hmap]
          have hfil : List.filter (fun q2 => (f q2).isSome) (q :: rest)
              = q :: List.filter (fun q2 => (f q2).isSome) rest := by
            simp [List.filter_cons, hf]
          rw [hfil]
          exact (flatten_map_consAt q _ i0 ks hi0 hnodup).trans
            (List.Perm.cons q (ih ks hnodup (fun q2 h2 => hcov q2 (by simp [h2]))))

/-- The regrouped probe order of one target is a permutation of its
assignable probes in original order. -/
theorem regrouped_perm (providers : List BaseProvider) (probes : List Probe) :
    (regrouped providers probes).Perm
      (probes.filter (fun probe => (provider_index providers probe).isSome)) := by
  unfold regrouped
  exact flatten_filter_perm (provider_index providers) probes
    (encounterKeys providers probes)
    (encounterKeys_nodup providers probes)
    (fun q hq i hi => (mem_encounterKeys providers probes i).2 ⟨q, hq, hi⟩)

/-- The target loop of optimize_plan is a fold of dict assignments of the
nonempty regrouped entries. -/
theorem foldl_optimize_step (providers : List BaseProvider) :
    ∀ (entries : List (String × List Probe)) (acc : ScanPlan),
    (entries.foldl (optimize_target_step providers) acc).target_probes
      = ((entries.map (fun tp => (tp.1, regrouped providers tp.2))).filter
          (fun tp => !tp.2.isEmpty)).foldl (fun l it => setKey it.1 it.2 l)
          acc.target_probes := by
  intro entries
  induction entries with
  | nil => intro acc; rfl
  | cons tp rest ih =>
      intro acc
      simp only [List.foldl_cons, List.map_cons, optimize_target_step,
        optimize_probes_eq]
      by_cases hemp : (regrouped providers tp.2).isEmpty = true
      · rw [if_pos hemp]
        have hfil : List.filter (fun tp2 => !tp2.2.isEmpty)
            ((tp.1, regrouped providers tp.2) ::
              rest.map (fun tp2 => (tp2.1, regrouped providers tp2.2)))
            = List.filter (fun tp2 => !tp2.2.isEmpty)
                (rest.map (fun tp2 => (tp2.1, regrouped providers tp2.2))) := by
          simp [List.filter_cons, hemp]
        rw [hfil]
        exact ih acc
      · rw [if_neg hemp]
        have hfil : List.filter (fun tp2 => !tp2.2.isEmpty)
            ((tp.1, regrouped providers tp.2) ::
              rest.map (fun tp2 => (tp2.1, regrouped providers tp2.2)))
            = (tp.1, regrouped providers tp.2) ::
              List.filter (fun tp2 => !tp2.2.isEmpty)
                (rest.map (fun tp2 => (tp2.1, regrouped providers tp2.2))) := by
          simp [List.filter_cons, hemp]
        rw [hfil]
        simp only [List.foldl_cons]
        exact ih (acc.add_target tp.1 (regrouped providers tp.2))

/-- C7: optimize_plan rewrites each kept target to its probes regrouped by
selected provider (relative order preserved inside each group, groups
in first-encounter order); a probe with no provider is dropped silently
rather than failing, a probe appears in the output exactly when it is
assignable, and when every probe of a target is assignable the total
probe count is unchanged. -/
theorem c7_optimize_plan_regroups_by_provider :
    ∀ (providers : List BaseProvider) (plan : ScanPlan),
    ((plan.target_probes.map (fun tp => tp.1)).Nodup →
       (optimize_plan providers plan).target_probes
         = (plan.target_probes.map (fun tp => (tp.1, regrouped providers tp.2))).filter
             (fun tp => !tp.2.isEmpty)) ∧
    (∀ probes : List Probe, (regrouped providers probes).Perm
        (probes.filter (fun probe => (provider_index providers probe).isSome))) ∧
    (∀ probes : List Probe,
        (∀ probe ∈ probes, (provider_index providers probe).isSome = true) →
        (regrouped providers probes).length = probes.length) ∧
    (∀ (probes : List Probe) (probe : Probe), probe ∈ regrouped providers probes ↔
        probe ∈ probes ∧ (provider_index providers probe).isSome = true) := by
  intro providers plan
  refine ⟨?_, regrouped_perm providers, ?_, ?_⟩
  · intro hnodup
    unfold optimize_plan
    rw [foldl_optimize_step providers plan.target_probes ScanPlan.empty]
    rw [foldl_setKey_fresh _ _ ?_
      (by intro it _ q hq; exact absurd hq (List.not_mem_nil q))]
    · rfl
    · have hsub : ((plan.target_probes.map
          (fun tp => (tp.1, regrouped providers tp.2))).filter
            (fun tp => !tp.2.isEmpty)).map (fun it => it.1)
          |>.Sublist ((plan.target_probes.map
            (fun tp => (tp.1, regrouped providers tp.2))).map (fun it => it.1)) :=
        List.Sublist.map _ (List.filter_sublist _)
      apply List.Nodup.sublist hsub
      rw [List.map_map]
      exact hnodup
  · intro probes hall
    rw [(regrouped_perm providers probes).length_eq]
    rw [List.filter_eq_self.2 hall]
  · intro probes probe
    rw [(regrouped_perm providers probes).mem_iff, List.mem_filter]

/-- Witness for C7: with a tls-only provider registered before a
catch-all provider, the probe order http, tls, http regroups to
http, http, tls (groups in first-encounter order, order kept inside
each group, count unchanged). -/
theorem c7_optimize_plan_regroups_by_provider_witness :
    (((ScanPlan.empty.add_target "t"
        [sampleHttpProbe, sampleTlsProbe, sampleHttpProbe]).target_probes.map
        (fun tp => tp.1)).Nodup) ∧
    ((optimize_plan [tlsOnlyProvider, anyProvider]
        (ScanPlan.empty.add_target "t"
          [sampleHttpProbe, sampleTlsProbe, sampleHttpProbe])).target_probes
      = [("t", [sampleHttpProbe, sampleHttpProbe, sampleTlsProbe])]) ∧
    ((regrouped [tlsOnlyProvider, anyProvider]
        [sampleHttpProbe, sampleTlsProbe, sampleHttpProbe]).length
      = ([sampleHttpProbe, sampleTlsProbe, sampleHttpProbe] : List Probe).length) :=
  ⟨by decide,
   (((c7_optimize_plan_regroups_by_provider [tlsOnlyProvider, anyProvider]
       (ScanPlan.empty.add_target "t"
         [sampleHttpProbe, sampleTlsProbe, sampleHttpProbe])).1 (by decide)).trans
     (by rfl)),
   ((c7_optimize_plan_regroups_by_provider [tlsOnlyProvider, anyProvider]
       ScanPlan.empty).2.2.1
     [sampleHttpProbe, sampleTlsProbe, sampleHttpProbe] (by decide))⟩

/-!  Claims C8 and C10: Evidence.raw_data_hash and to_dict.  -/

theorem lexLe_total : ∀ x y : List Char, lexLe x y = true ∨ lexLe y x = true := by
  intro x
  induction x with
  | nil => intro y; exact Or.inl rfl
  | cons a as ih =>
      intro y
      cases y with
      | nil => exact Or.inr rfl
      | cons b bs =>
          by_cases h1 : a.toNat < b.toNat
          · exact Or.inl (by simp [lexLe, h1])
          · by_cases h2 : b.toNat < a.toNat
            · exact Or.inr (by simp [lexLe, h2])
            · rcases ih bs with h | h
              · exact Or.inl (by simp [lexLe, h1, h2, h])
              · exact Or.inr (by simp [lexLe, h1, h2, h])

theorem lexLe_trans : ∀ x y z : List Char,
    lexLe x y = true → lexLe y z = true → lexLe x z = true := by
  intro x
  induction x with
  | nil => intro y z _ _; rfl
  | cons a as ih =>
      intro y z hxy hyz
      cases y with
      | nil => exact absurd hxy (by simp [lexLe])
      | cons b bs =>
          cases z with
          | nil => exact absurd hyz (by simp [lexLe])
          | cons c cs =>
              simp only [lexLe] at hxy hyz ⊢
              by_cases h1 : a.toNat < b.toNat
              · by_cases h2 : b.toNat < c.toNat
                · rw [if_pos (Nat.lt_trans h1 h2)]
                · by_cases h3 : c.toNat < b.toNat
                  · rw [if_neg h2, if_pos h3] at hyz
                    exact absurd hyz (by simp)
                  · have hbc : b.toNat = c.toNat :=
                      Nat.le_antisymm (Nat.le_of_not_lt h3) (Nat.le_of_not_lt h2)
                    rw [if_pos (hbc ▸ h1)]
              · by_cases h1b : b.toNat < a.toNat
                · rw [if_neg h1, if_pos h1b] at hxy
                  exact absurd hxy (by simp)
                · rw [if_neg h1, if_neg h1b] at hxy
                  have hab : a.toNat = b.toNat :=
                    Nat.le_antisymm (Nat.le_of_not_lt h1b) (Nat.le_of_not_lt h1)
                  by_cases h2 : b.toNat < c.toNat
                  · rw [if_pos (hab ▸ h2)]
                  · by_cases h3 : c.toNat < b.toNat
                    · rw [if_neg h2, if_pos h3] at hyz
                      exact absurd hyz (by simp)
                    · rw [if_neg h2, if_neg h3] at hyz
                      have hbc : b.toNat = c.toNat :=
                        Nat.le_antisymm (Nat.le_of_not_lt h3) (Nat.le_of_not_lt h2)
                      have hac : a.toNat = c.toNat := hab.trans hbc
                      rw [if_neg (by rw [hac]; exact Nat.lt_irrefl _),
                        if_neg (by rw [hac]; exact Nat.lt_irrefl _)]
                      exact ih bs cs hxy hyz

theorem char_eq_of_toNat_eq {a b : Char} (h : a.toNat = b.toNat) : a = b :=
  Char.ext (UInt32.ext h)

theorem lexLe_antisymm : ∀ x y : List Char,
    lexLe x y = true → lexLe y x = true → x = y := by
  intro x
  induction x with
  | nil =>
      intro y h1 h2
      cases y with
      | nil => rfl
      | cons b bs => exact absurd h2 (by simp [lexLe])
  | cons a as ih =>
      intro y h1 h2
      cases y with
      | nil => exact absurd h1 (by simp [lexLe])
      | cons b bs =>
          simp only [lexLe] at h1 h2
          by_cases hab : a.toNat < b.toNat
          · rw [if_neg (Nat.lt_asymm hab), if_pos hab] at h2
            exact absurd h2 (by simp)
          · by_cases hba : b.toNat < a.toNat
            · rw [if_neg hab, if_pos hba] at h1
              exact absurd h1 (by simp)
            · rw [if_neg hab, if_neg hba] at h1
              rw [if_neg hba, if_neg hab] at h2
              have heq : a = b := char_eq_of_toNat_eq
                (Nat.le_antisymm (Nat.le_of_not_lt hba) (Nat.le_of_not_lt hab))
              rw [heq, ih bs h1 h2]

theorem insKV_perm (p : String × Json) : ∀ l : JDict, (insKV p l).Perm (p :: l) := by
  intro l
  induction l with
  | nil => exact List.Perm.refl _
  | cons q rest ih =>
      simp only [insKV]
      by_cases h : keyLe p q = true
      · rw [if_pos h]
      · rw [if_neg h]
        exact (List.Perm.cons q ih).trans (List.Perm.swap p q rest)

theorem sortKVs_perm : ∀ l : JDict, (sortKVs l).Perm l := by
  intro l
  induction l with
  | nil => exact List.Perm.refl _
  | cons p rest ih =>
      simp only [sortKVs]
      exact (insKV_perm p (sortKVs rest)).trans (List.Perm.cons p ih)

theorem insKV_pairwise (p : String × Json) :
    ∀ l : JDict, List.Pairwise (fun a b => keyLe a b = true) l →
    List.Pairwise (fun a b => keyLe a b = true) (insKV p l) := by
  intro l
  induction l with
  | nil => intro _; simp [insKV]
  | cons q rest ih =>
      intro hp
      simp only [insKV]
      by_cases h : keyLe p q = true
      · rw [if_pos h]
        refine List.Pairwise.cons ?_ hp
        intro z hz
        rcases List.mem_cons.1 hz with rfl | hz2
        · exact h
        · exact lexLe_trans _ _ _ h ((List.pairwise_cons.1 hp).1 z hz2)
      · rw [if_neg h]
        have hqp : keyLe q p = true := by
          rcases lexLe_total p.1.toList q.1.toList with ht | ht
          · exact absurd ht h
          · exact ht
        refine List.Pairwise.cons ?_ (ih (List.pairwise_cons.1 hp).2)
        intro z hz
        have hz2 : z ∈ p :: rest := ((insKV_perm p rest).mem_iff).1 hz
        rcases List.mem_cons.1 hz2 with rfl | hz3
        · exact hqp
        · exact (List.pairwise_cons.1 hp).1 z hz3

theorem sortKVs_pairwise : ∀ l : JDict,
    List.Pairwise (fun a b => keyLe a b = true) (sortKVs l) := by
  intro l
  induction l with
  | nil => simp [sortKVs]
  | cons p rest ih =>
      simp only [sortKVs]
      exact insKV_pairwise p (sortKVs rest) ih

/-- Two key-sorted dicts with the same entries and distinct keys are
identical: key-sorted serialization is insensitive to insertion order. -/
theorem sorted_nodupkeys_eq :
    ∀ l1 l2 : JDict, l1.Perm l2 →
    List.Pairwise (fun a b => keyLe a b = true) l1 →
    List.Pairwise (fun a b => keyLe a b = true) l2 →
    (l1.map (fun kv => kv.1)).Nodup → l1 = l2 := by
  intro l1 l2 hperm hs1 hs2 hnd1
  have hnd2 : (l2.map (fun kv => kv.1)).Nodup := (hperm.map _).nodup hnd1
  have hk1 : List.Pairwise (fun a b : String × Json => a.1 ≠ b.1) l1 :=
    List.pairwise_map.1 hnd1
  have hk2 : List.Pairwise (fun a b : String × Json => a.1 ≠ b.1) l2 :=
    List.pairwise_map.1 hnd2
  haveI : IsAntisymm (String × Json)
      (fun a b => keyLe a b = true ∧ a.1 ≠ b.1) := ⟨by
    intro a b h1 h2
    exact absurd (String.ext (lexLe_antisymm _ _ h1.1 h2.1)) h1.2⟩
  exact List.eq_of_perm_of_sorted hperm (hs1.and hk1) (hs2.and hk2)

/-- The value canonicalization of a dict is a map over its entries. -/
theorem sortJsonEntries_eq_map : ∀ l : JDict,
    sortJsonEntries l = l.map (fun kv => (kv.1, sortJson kv.2)) := by
  intro l
  induction l with
  | nil => rfl
  | cons kv rest ih =>
      obtain ⟨k, v⟩ := kv
      simp only [sortJsonEntries, List.map_cons, ih]

/-- Key-sorting after canonicalization is insensitive to the insertion
order of a dict with distinct keys. -/
theorem sortKVs_perm_eq (d1 d2 : JDict) (hperm : d1.Perm d2)
    (hnd : (d1.map (fun kv => kv.1)).Nodup) :
    sortKVs (sortJsonEntries d1) = sortKVs (sortJsonEntries d2) := by
  apply sorted_nodupkeys_eq
  · have hmap : (sortJsonEntries d1).Perm (sortJsonEntries d2) := by
      rw [sortJsonEntries_eq_map, sortJsonEntries_eq_map]
      exact hperm.map _
    exact (sortKVs_perm _).trans (hmap.trans (sortKVs_perm _).symm)
  · exact sortKVs_pairwise _
  · exact sortKVs_pairwise _
  · have hkeys : (sortJsonEntries d1).map (fun kv => kv.1)
        = d1.map (fun kv => kv.1) := by
      rw [sortJsonEntries_eq_map, List.map_map]
      rfl
    have h1 : ((sortJsonEntries d1).map (fun kv => kv.1)).Nodup := by
      rw [hkeys]; exact hnd
    exact (((sortKVs_perm (sortJsonEntries d1)).map (fun kv => kv.1)).symm).nodup h1

/-- C8: the derived fields of Evidence.to_dict are pure functions of the
record (recomputing them yields identical values); the hash of a
nonempty raw_data is the 16-character prefix of the digest of the
key-sorted serialization; and two raw_data payloads holding the same
entries in different insertion order hash identically. -/
theorem c8_raw_data_hash_content_stable :
    ∀ (sha256hex : String → String) (e1 e2 : Evidence),
    (Evidence.to_dict sha256hex e1 = Evidence.to_dict sha256hex e1) ∧
    (e1.raw_data ≠ [] →
       e1.raw_data_hash sha256hex
         = (sha256hex (jdumpsSorted (Json.obj e1.raw_data))).take 16) ∧
    (e1.raw_data.Perm e2.raw_data → (e1.raw_data.map (fun kv => kv.1)).Nodup →
       e1.raw_data_hash sha256hex = e2.raw_data_hash sha256hex) := by
  intro sha e1 e2
  refine ⟨rfl, ?_, ?_⟩
  · intro hne
    unfold Evidence.raw_data_hash
    rw [if_neg (by simp [List.isEmpty_iff, hne])]
  · intro hperm hnd
    unfold Evidence.raw_data_hash
    cases h1 : e1.raw_data with
    | nil =>
        have h2 : e2.raw_data = [] := by
          have hl := hperm.length_eq
          rw [h1] at hl
          simp only [List.length_nil] at hl
          exact List.length_eq_zero.1 hl.symm
        rw [h2]
    | cons a l =>
        have h2 : e2.raw_data ≠ [] := by
          intro hc
          have hl := hperm.length_eq
          rw [h1, hc] at hl
          simp at hl
        have hsort : sortKVs (sortJsonEntries e1.raw_data)
            = sortKVs (sortJsonEntries e2.raw_data) :=
          sortKVs_perm_eq e1.raw_data e2.raw_data hperm hnd
        have hdump : jdumpsSorted (Json.obj e1.raw_data)
            = jdumpsSorted (Json.obj e2.raw_data) := by
          unfold jdumpsSorted
          simp only [sortJson, hsort]
        rw [h1] at hdump
        rw [if_neg (by simp [h1]), if_neg (by simp [List.isEmpty_iff, h2]), hdump]

/-- Witness for C8: swapping the insertion order of two keys leaves the
truncated hash unchanged. -/
theorem c8_raw_data_hash_content_stable_witness :
    (([("b", Json.num 2), ("a", Json.num 1)] : JDict).Perm
        [("a", Json.num 1), ("b", Json.num 2)]) ∧
    ((([("b", Json.num 2), ("a", Json.num 1)] : JDict).map (fun kv => kv.1)).Nodup) ∧
    (Evidence.raw_data_hash sha64a (evRaw [("b", Json.num 2), ("a", Json.num 1)])
      = Evidence.raw_data_hash sha64a (evRaw [("a", Json.num 1), ("b", Json.num 2)])) :=
  ⟨List.Perm.swap ("a", Json.num 1) ("b", Json.num 2) [],
   by decide,
   (c8_raw_data_hash_content_stable sha64a
      (evRaw [("b", Json.num 2), ("a", Json.num 1)])
      (evRaw [("a", Json.num 1), ("b", Json.num 2)])).2.2
     (List.Perm.swap ("a", Json.num 1) ("b", Json.num 2) [])
     (by decide)⟩

/-- C10: an empty raw_data hashes to the empty string rather than a
16-character prefix; the truncated 16-character hash is produced only
for nonempty raw_data (given the 64-character digest length of
SHA-256). -/
theorem c10_raw_data_hash_empty_string :
    ∀ (sha256hex : String → String) (e : Evidence),
    (e.raw_data = [] → e.raw_data_hash sha256hex = "") ∧
    ((∀ s, (sha256hex s).length = 64) → e.raw_data ≠ [] →
       (e.raw_data_hash sha256hex).length = 16) := by
  intro sha e
  constructor
  · intro h
    unfold Evidence.raw_data_hash
    rw [if_pos (by simp [h])]
  · intro hlen hne
    unfold Evidence.raw_data_hash
    rw [if_neg (by simp [List.isEmpty_iff, hne])]
    rw [String.take_eq]
    show (List.take 16 (sha (jdumpsSorted (Json.obj e.raw_data))).data).length = 16
    rw [List.length_take]
    have h64 : ((sha (jdumpsSorted (Json.obj e.raw_data))).data).length = 64 :=
      hlen (jdumpsSorted (Json.obj e.raw_data))
    rw [h64]
    decide

/-- Witness for C10: the empty payload hashes to "", and a one-key payload
hashes to a 16-character prefix under a 64-character digest. -/
theorem c10_raw_data_hash_empty_string_witness :
    Evidence.raw_data_hash sha64a (evRaw []) = "" ∧
    (∀ s, (sha64a s).length = 64) ∧
    (Evidence.raw_data_hash sha64a (evRaw [("a", Json.num 1)])).length = 16 :=
  ⟨(c10_raw_data_hash_empty_string sha64a (evRaw [])).1 rfl,
   fun _ => rfl,
   (c10_raw_data_hash_empty_string sha64a (evRaw [("a", Json.num 1)])).2
     (fun _ => rfl) (by simp [evRaw])⟩
